import Mathlib

/-!
Shallow embedding of the transaction execution core of the burrow batch
executor (src/execution/execution.go, package `execution`), together with
proofs checking the natural-language specification against it.

Conventions of the embedding:
* machine integers (`uint64` balances, sequences, amounts, heights) are
  modelled as `Nat`; every subtraction the code performs on a success path
  is guarded by an explicit balance check, so truncated `Nat` subtraction
  agrees with the source there, and the unguarded `uint64` additions — the
  input/output total accumulators of `validateInputs`/`validateOutputs`
  and the balance credit of `adjustByOutputs` — wrap explicitly at
  `% u64` (2^64), as the source's machine arithmetic does;
* the Go code mutates an in-memory block cache; here state is passed
  explicitly: every function returns the new `ExecState` together with the
  error that `Execute` returns.  Account reads yield working copies and the
  only write-back is `updateAccount` / name-registry updates, following the
  spec's cache contract (section 4.1 and the design note on mutable views);
* collaborators that are out of scope of the source file (cryptographic
  primitives, the EVM, the name-registry cost constants) are modelled from
  the spec; their definitions carry a doc comment saying so.
-/

namespace Burrow

/-- Base permission bitmap with a set-mask, as in the spec's data model:
`permissions: (base: bitmap-with-set-mask)`.  `perms` holds the stored
boolean bits, `setBit` the mask of bits that are set-in-mask. -/
structure BasePermissions where
  perms : Nat
  setBit : Nat
deriving DecidableEq

/-- Account permissions: base bitmap plus role strings. -/
structure AccountPermissions where
  base : BasePermissions
  roles : List String
deriving DecidableEq

/-- An account, following the spec's data model (section 3).  Addresses and
public keys are abstract `Nat` identifiers. -/
structure Account where
  address : Nat
  pubKey : Option Nat
  sequence : Nat
  balance : Nat
  code : List Nat
  permissions : AccountPermissions
deriving DecidableEq

/-- A signed transaction input, as in `txs.TxInput`. -/
structure TxInput where
  address : Nat
  amount : Nat
  sequence : Nat
  signature : List Nat
  pubKey : Option Nat
deriving DecidableEq

/-- A transaction output, as in `txs.TxOutput`. -/
structure TxOutput where
  address : Nat
  amount : Nat
deriving DecidableEq

/-- `txs.SendTx`. -/
structure SendTx where
  inputs : List TxInput
  outputs : List TxOutput
deriving DecidableEq

/-- `txs.CallTx`; `address = none` means contract creation. -/
structure CallTx where
  input : TxInput
  address : Option Nat
  gasLimit : Nat
  fee : Nat
  data : List Nat
deriving DecidableEq

/-- `txs.NameTx`. -/
structure NameTx where
  input : TxInput
  name : String
  data : List Nat
  fee : Nat
deriving DecidableEq

/-- Permission flags (`ptypes.PermFlag`), modelled as single-bit `Nat`
bitmasks.  The concrete bit positions are not in src/; distinct powers of
two are chosen, which is all the dispatcher relies on. -/
def permRoot : Nat := 1
def permSend : Nat := 2
def permCall : Nat := 4
def permCreateContract : Nat := 8
def permCreateAccount : Nat := 16
def permBond : Nat := 32
def permName : Nat := 64
def permHasBase : Nat := 128
def permSetBase : Nat := 256
def permUnsetBase : Nat := 512
def permSetGlobal : Nat := 1024
def permHasRole : Nat := 2048
def permAddRole : Nat := 4096
def permRemoveRole : Nat := 8192

/-- `permission.AllPermFlags`: union of all known flags. -/
def allPermFlags : Nat := 16383

/-- `ptypes.PermArgs` of a `txs.PermissionsTx`. -/
structure PermArgs where
  permFlag : Nat
  address : Nat
  permission : Nat
  value : Bool
  role : String
deriving DecidableEq

/-- `txs.PermissionsTx`. -/
structure PermissionsTx where
  input : TxInput
  permArgs : PermArgs
deriving DecidableEq

/-- The transaction sum type dispatched by `Execute`. -/
inductive Tx
  | send (t : SendTx)
  | call (t : CallTx)
  | name (t : NameTx)
  | perm (t : PermissionsTx)
deriving DecidableEq

/-- A name-registry entry (`NameRegEntry`). -/
structure NameRegEntry where
  name : String
  owner : Nat
  data : List Nat
  expires : Nat
deriving DecidableEq

/-- Events fired into the event cache; payloads other than the address /
name / exception string are irrelevant to the claims and omitted. -/
inductive Event
  | accIn (addr : Nat) (exception : String)
  | accOut (addr : Nat) (exception : String)
  | nameRegEv (name : String)
  | permissionsEv (flag : Nat)
deriving DecidableEq

/-- The block-cache view of state threaded through `Execute`: accounts and
name-registry entries as association lists (Go maps keyed by address and
name), plus the buffered events of the event cache. -/
structure ExecState where
  accounts : List (Nat × Account)
  nameReg : List (String × NameRegEntry)
  events : List Event
deriving DecidableEq

/-- Association-list lookup (first match), the read of a Go map. -/
def alookup {α β : Type} [DecidableEq α] (l : List (α × β)) (k : α) : Option β :=
  match l with
  | [] => none
  | p :: rest => if p.1 = k then some p.2 else alookup rest k

/-- Association-list upsert: replace the first matching binding in place, or
append a new one; the write of a Go map. -/
def aupsert {α β : Type} [DecidableEq α] (l : List (α × β)) (k : α) (v : β) : List (α × β) :=
  match l with
  | [] => [(k, v)]
  | p :: rest => if p.1 = k then (k, v) :: rest else p :: aupsert rest k v

/-- `BlockCache.GetAccount`: yields a working copy. -/
def getAccount (st : ExecState) (addr : Nat) : Option Account :=
  alookup st.accounts addr

/-- `BlockCache.UpdateAccount`: writes an account back under its address. -/
def updateAccount (st : ExecState) (acc : Account) : ExecState :=
  { st with accounts := aupsert st.accounts acc.address acc }

/-- `BlockCache.GetNameRegEntry`. -/
def getNameEntry (st : ExecState) (name : String) : Option NameRegEntry :=
  alookup st.nameReg name

/-- `BlockCache.UpdateNameRegEntry`: keyed by the entry's name. -/
def updateNameEntry (st : ExecState) (e : NameRegEntry) : ExecState :=
  { st with nameReg := aupsert st.nameReg e.name e }

/-- Remove every binding of a key from an association list (the delete of
a Go map). -/
def aremove {α β : Type} [DecidableEq α] (l : List (α × β)) (k : α) : List (α × β) :=
  match l with
  | [] => []
  | p :: rest => if p.1 = k then aremove rest k else p :: aremove rest k

/-- `BlockCache.RemoveNameRegEntry`. -/
def removeNameEntry (st : ExecState) (name : String) : ExecState :=
  { st with nameReg := aremove st.nameReg name }

/-- `event.Cache.Fire`: buffer an event. -/
def fireEvent (st : ExecState) (e : Event) : ExecState :=
  { st with events := st.events ++ [e] }

/-- Modelled from the spec: the out-of-scope cryptographic collaborators
(section 1: "cryptographic primitives (signature verify, address
derivation)" and section 6's transaction envelope).  `pkAddress` is the
deterministic address derivation from a public key, `verify pk signBytes
sig` the signature check, and `signBytes chainID tx` the deterministic
sign-bytes serialization prefixed by the chain id.  All development is
parametric in this structure. -/
structure Crypto where
  pkAddress : Nat → Nat
  verify : Nat → List Nat → List Nat → Bool
  signBytes : Nat → Tx → List Nat

/-- Error kinds surfaced by `Execute` (spec section 7); `fmt.Errorf` cases
are given their own constructors. -/
inductive TxErr
  | invalidAddress
  | invalidSignature
  | invalidPubKey
  | unknownPubKey
  | invalidSequence (got expected : Nat)
  | insufficientFunds
  | duplicateAddress
  | invalidAmount
  | invalidString
  | noSendPermission
  | noCallPermission
  | noCreateContractPermission
  | noCreateAccountPermission
  | noNamePermission
  | noModeratorPermission
  | nameNotOwned
  | nameTooShort
  | nativeContractCall
  | hasBaseRejected
  | hasRoleRejected
  | roleAlreadyExists
  | roleNotFound
  | permAccountMissing
  | fatal (msg : String)
deriving DecidableEq

/-- Clear the bits of `f` from `p` (for bitmaps: `p` minus the `f` bits). -/
def clearBits (p f : Nat) : Nat := p ^^^ (p &&& f)

/-- Modelled from the spec: `BasePermissions.Get` (section 4.3): if the
flag is set-in-mask return the stored boolean, otherwise value-not-set. -/
def baseGet (bp : BasePermissions) (flag : Nat) : Option Bool :=
  if bp.setBit &&& flag = flag then some (bp.perms &&& flag = flag) else none

/-- Modelled from the spec: `BasePermissions.Set` sets the bit and its
mask (section 4.3). -/
def baseSet (bp : BasePermissions) (flag : Nat) (value : Bool) : BasePermissions :=
  { perms := if value then bp.perms ||| flag else clearBits bp.perms flag,
    setBit := bp.setBit ||| flag }

/-- Modelled from the spec: `BasePermissions.Unset` clears the mask,
leaving the stored bit irrelevant (section 4.3). -/
def baseUnset (bp : BasePermissions) (flag : Nat) : BasePermissions :=
  { bp with setBit := clearBits bp.setBit flag }

/-- Modelled from the spec: `AccountPermissions.AddRole`; duplicate add
reports failure (section 4.3). -/
def addRole (ap : AccountPermissions) (role : String) : AccountPermissions × Bool :=
  if role ∈ ap.roles then (ap, false)
  else ({ ap with roles := ap.roles ++ [role] }, true)

/-- Modelled from the spec: `AccountPermissions.RmRole`; missing remove
reports failure (section 4.3). -/
def rmRole (ap : AccountPermissions) (role : String) : AccountPermissions × Bool :=
  if role ∈ ap.roles then ({ ap with roles := ap.roles.filter (· ≠ role) }, true)
  else (ap, false)

/-- Modelled from the spec: `permission.GlobalPermissionsAddress`, the
fixed well-known address of the global permissions account.  The concrete
value is opaque; `0` is chosen. -/
def globalPermsAddr : Nat := 0

/-- `HasPermission` (execution.go): read the flag from the account's base
bitmap; when not set-in-mask, fall back to the global permissions account
without further fallback.  The source panics on a flag above
`AllPermFlags`, on a missing global permissions account and on an unset
global bit; those programmer-invariant violations are modelled as
`false`. -/
def hasPermission (st : ExecState) (acc : Account) (flag : Nat) : Bool :=
  if allPermFlags < flag then false
  else
    match baseGet acc.permissions.base flag with
    | some v => v
    | none =>
      match getAccount st globalPermsAddr with
      | some g => (baseGet g.permissions.base flag).getD false
      | none => false

/-- `hasSendPermission`: every input account has `Send`. -/
def hasSendPerm (st : ExecState) (accs : List (Nat × Account)) : Bool :=
  accs.all (fun p => hasPermission st p.2 permSend)

/-- `hasCreateAccountPermission`: every account in the map has
`CreateAccount`. -/
def hasCreateAccountPerm (st : ExecState) (accs : List (Nat × Account)) : Bool :=
  accs.all (fun p => hasPermission st p.2 permCreateAccount)

/-- `checkInputPubKey` (execution.go): when the cached account has no
public key, the input must carry one whose derived address equals the
account's address, and the account is updated with it; when the account
already has one, the input's pubkey is dropped.  Returns the (possibly
updated) account and input. -/
def checkInputPubKey (c : Crypto) (acc : Account) (i : TxInput) :
    Except TxErr (Account × TxInput) :=
  match acc.pubKey with
  | none =>
    match i.pubKey with
    | none => .error .unknownPubKey
    | some pk =>
      if c.pkAddress pk ≠ acc.address then .error .invalidPubKey
      else .ok ({ acc with pubKey := some pk }, i)
  | some _ => .ok (acc, { i with pubKey := none })

/-- Modelled from the spec: `TxInput.ValidateBasic` (section 4.4 item 1):
non-zero amount, non-empty signature, and if a pubkey is present its
derived address equals the input's address.  (The "non-empty address"
check does not translate to abstract `Nat` addresses.) -/
def basicValidInput (c : Crypto) (i : TxInput) : Bool :=
  i.amount ≠ 0 && i.signature ≠ [] &&
    (match i.pubKey with
     | none => true
     | some pk => c.pkAddress pk = i.address)

/-- Signature verification against the account's public key; a missing
account key verifies nothing. -/
def accVerify (c : Crypto) (acc : Account) (signBytes : List Nat) (sig : List Nat) : Bool :=
  match acc.pubKey with
  | some pk => c.verify pk signBytes sig
  | none => false

/-- `validateInput` (execution.go): basic input check, then signature,
then sequence, then balance; `none` means valid. -/
def validateInput (c : Crypto) (acc : Account) (signBytes : List Nat) (i : TxInput) :
    Option TxErr :=
  if ¬basicValidInput c i then some .invalidAmount
  else if ¬accVerify c acc signBytes i.signature then some .invalidSignature
  else if acc.sequence + 1 ≠ i.sequence then
    some (.invalidSequence i.sequence (acc.sequence + 1))
  else if acc.balance < i.amount then some .insufficientFunds
  else none

/-- The modulus of the source's `uint64` machine arithmetic: the total
accumulators `total += in.Amount` / `total += out.Amount` and the balance
credit of `AddToBalance` wrap at 2^64. -/
def u64 : Nat := 18446744073709551616

/-- `validateInputs` (execution.go): per-input validation against the
account map, accumulating the total input amount in wrapping `uint64`
arithmetic.  The source panics on a missing account; that cannot occur at
the call site and is modelled as a fatal error. -/
def validateInputs (c : Crypto) (accs : List (Nat × Account)) (signBytes : List Nat) :
    List TxInput → Except TxErr Nat
  | [] => .ok 0
  | i :: rest =>
    match alookup accs i.address with
    | none => .error (.fatal "validateInputs expects account in accounts")
    | some acc =>
      match validateInput c acc signBytes i with
      | some e => .error e
      | none =>
        match validateInputs c accs signBytes rest with
        | .error e => .error e
        | .ok total => .ok ((i.amount + total) % u64)

/-- Modelled from the spec: `TxOutput.ValidateBasic` — outputs carry an
address and a non-zero amount (data model, section 3). -/
def basicValidOutput (o : TxOutput) : Bool :=
  o.amount ≠ 0

/-- `validateOutputs` (execution.go): basic checks and the total in
wrapping `uint64` arithmetic. -/
def validateOutputs : List TxOutput → Except TxErr Nat
  | [] => .ok 0
  | o :: rest =>
    if ¬basicValidOutput o then .error .invalidAmount
    else
      match validateOutputs rest with
      | .error e => .error e
      | .ok total => .ok ((o.amount + total) % u64)

/-- `getInputs` (execution.go): resolve each input to a mutable account
copy, rejecting duplicate addresses and missing accounts, binding public
keys via `checkInputPubKey`.  Returns the account map (in input order) and
the inputs as mutated by the pubkey binding. -/
def getInputs (c : Crypto) (st : ExecState) :
    List TxInput → List (Nat × Account) → Except TxErr (List (Nat × Account) × List TxInput)
  | [], accs => .ok (accs, [])
  | i :: rest, accs =>
    if (alookup accs i.address).isSome then .error .duplicateAddress
    else
      match getAccount st i.address with
      | none => .error .invalidAddress
      | some acc =>
        match checkInputPubKey c acc i with
        | .error e => .error e
        | .ok (acc1, i1) =>
          match getInputs c st rest (accs ++ [(i.address, acc1)]) with
          | .error e => .error e
          | .ok (accsF, restF) => .ok (accsF, i1 :: restF)

/-- A fresh output account: `ConcreteAccount` with sequence 0, balance 0,
zero permissions (execution.go, `getOrMakeOutputs`). -/
def freshAccount (addr : Nat) : Account :=
  { address := addr, pubKey := none, sequence := 0, balance := 0, code := [],
    permissions := { base := { perms := 0, setBit := 0 }, roles := [] } }

/-- `getOrMakeOutputs` (execution.go): extend the account map with each
output; duplicates (also against the inputs) are rejected; an absent
output account is created only if every account already in the map has the
`CreateAccount` permission, checked lazily at the first absent output
(`checkedCreatePerms`). -/
def getOrMakeOutputs (st : ExecState) (checked : Bool) (accs : List (Nat × Account)) :
    List TxOutput → Except TxErr (List (Nat × Account))
  | [] => .ok accs
  | o :: rest =>
    if (alookup accs o.address).isSome then .error .duplicateAddress
    else
      match getAccount st o.address with
      | some acc => getOrMakeOutputs st checked (accs ++ [(o.address, acc)]) rest
      | none =>
        if ¬checked ∧ ¬hasCreateAccountPerm st accs then .error .noCreateAccountPermission
        else getOrMakeOutputs st true (accs ++ [(o.address, freshAccount o.address)]) rest

/-- Modify the account bound at `addr` in an account map (the map write of
`adjustByInputs` / `adjustByOutputs`); a missing binding is a source panic
and leaves the map unchanged here. -/
def aadjust (accs : List (Nat × Account)) (addr : Nat) (f : Account → Account) :
    List (Nat × Account) :=
  accs.map (fun p => if p.1 = addr then (p.1, f p.2) else p)

/-- `adjustByInputs` (execution.go): per input, subtract the amount from
the balance and increment the sequence.  The source panics on a missing
account or insufficient funds; at the call site `validateInputs` has
established both. -/
def adjustByInputs (accs : List (Nat × Account)) : List TxInput → List (Nat × Account)
  | [] => accs
  | i :: rest =>
    adjustByInputs
      (aadjust accs i.address
        (fun a => { a with balance := a.balance - i.amount, sequence := a.sequence + 1 }))
      rest

/-- `adjustByOutputs` (execution.go): per output, add the amount to the
balance; `AddToBalance` wraps in `uint64`. -/
def adjustByOutputs (accs : List (Nat × Account)) : List TxOutput → List (Nat × Account)
  | [] => accs
  | o :: rest =>
    adjustByOutputs
      (aadjust accs o.address (fun a => { a with balance := (a.balance + o.amount) % u64 }))
      rest

/-- Write every account of the map back into the block cache
(`for _, acc := range accounts: exe.blockCache.UpdateAccount(acc)`). -/
def writeAccounts (st : ExecState) (accs : List (Nat × Account)) : ExecState :=
  accs.foldl (fun s p => updateAccount s p.2) st

/-- Fire one `AccInput` event per input and one `AccOutput` per output
(SendTx case of `Execute`). -/
def fireSendEvents (st : ExecState) (tx : SendTx) : ExecState :=
  let st1 := tx.inputs.foldl (fun s i => fireEvent s (.accIn i.address "")) st
  tx.outputs.foldl (fun s o => fireEvent s (.accOut o.address "")) st1

/-- The SendTx case of `Execute` (execution.go lines 159-209), threading
the block cache explicitly.  Returns the new state, the booked fees, and
the error result. -/
def executeSend (c : Crypto) (st : ExecState) (chainID : Nat) (tx : SendTx) :
    ExecState × Nat × Option TxErr :=
  match getInputs c st tx.inputs [] with
  | .error e => (st, 0, some e)
  | .ok (accs, ins1) =>
    if ¬hasSendPerm st accs then (st, 0, some .noSendPermission)
    else
      match getOrMakeOutputs st false accs tx.outputs with
      | .error e => (st, 0, some e)
      | .ok accs2 =>
        let signBytes := c.signBytes chainID (.send { tx with inputs := ins1 })
        match validateInputs c accs2 signBytes ins1 with
        | .error e => (st, 0, some e)
        | .ok inTotal =>
          match validateOutputs tx.outputs with
          | .error e => (st, 0, some e)
          | .ok outTotal =>
            if inTotal < outTotal then (st, 0, some .insufficientFunds)
            else
              let fee := inTotal - outTotal
              let accs3 := adjustByOutputs (adjustByInputs accs2 ins1) tx.outputs
              let st1 := writeAccounts st accs3
              (fireSendEvents st1 tx, fee, none)

/-- Modelled from the spec: `txs.MinNameRegistrationPeriod` (glossary),
configured at genesis; the project default of 5 blocks is used. -/
def minNameRegistrationPeriod : Nat := 5

/-- Modelled from the spec: `txs.NameBaseCost(name, data)` (glossary):
`len(name) + len(data) + 32`. -/
def nameBaseCost (name : String) (data : List Nat) : Nat :=
  name.length + data.length + 32

/-- Modelled from the spec: `txs.NameCostPerBlock(base) = base ·
NameByteCostMultiplier · NameBlockCostMultiplier` (glossary).  The
multipliers are not under src/; the spec's credit-preservation round-trip
property (section 8, property 6) forces their product to be 1, so the cost
per block equals the base cost. -/
def nameCostPerBlock (baseCost : Nat) : Nat :=
  baseCost

/-- Modelled from the spec: `NameTx.ValidateStrings` — the name is a
non-empty string within the length limit, the data within its length limit
(section 4.5 NameTx step 1; data model, section 3). -/
def validNameTxStrings (tx : NameTx) : Bool :=
  tx.name ≠ "" && tx.name.length ≤ 64 && tx.data.length ≤ 65536

/-- The validation prefix of the NameTx case of `Execute` (execution.go
lines 404-441): input account lookup, `Name` permission, pubkey binding,
input validation, fee coverage and string validation.  Returns the
validated account and the (possibly mutated) input. -/
def nameCheck (c : Crypto) (st : ExecState) (chainID : Nat) (tx : NameTx) :
    Except TxErr (Account × TxInput) :=
  match getAccount st tx.input.address with
  | none => .error .invalidAddress
  | some inAcc =>
    if ¬hasPermission st inAcc permName then .error .noNamePermission
    else
      match checkInputPubKey c inAcc tx.input with
      | .error e => .error e
      | .ok (inAcc1, in1) =>
        let signBytes := c.signBytes chainID (.name { tx with input := in1 })
        match validateInput c inAcc1 signBytes in1 with
        | some e => .error e
        | none =>
          if in1.amount < tx.fee then .error .insufficientFunds
          else if ¬validNameTxStrings tx then .error .invalidString
          else .ok (inAcc1, in1)

/-- The name-registry decision of the NameTx case (execution.go lines
443-528): create a fresh entry, delete on zero value and empty data,
reclaim an expired entry, or extend an owned entry under the
credit-preservation rule. -/
def nameRegApply (st : ExecState) (height : Nat) (tx : NameTx) (value : Nat) :
    Except TxErr ExecState :=
  let costPerBlock := nameCostPerBlock (nameBaseCost tx.name tx.data)
  let expiresIn := value / costPerBlock
  match getNameEntry st tx.name with
  | some entry =>
    if entry.expires > height ∧ entry.owner ≠ tx.input.address then .error .nameNotOwned
    else if value = 0 ∧ tx.data = [] then .ok (removeNameEntry st entry.name)
    else if ¬(entry.expires > height) then
      -- expired: reclaim
      if expiresIn < minNameRegistrationPeriod then .error .nameTooShort
      else
        .ok (updateNameEntry st
          { entry with expires := height + expiresIn, owner := tx.input.address,
                       data := tx.data })
    else
      -- owned and not expired: extend under the credit rule
      let oldCredit := (entry.expires - height) * nameBaseCost entry.name entry.data
      let credit := oldCredit + value
      let expiresIn2 := credit / costPerBlock
      if expiresIn2 < minNameRegistrationPeriod then .error .nameTooShort
      else
        .ok (updateNameEntry st { entry with expires := height + expiresIn2, data := tx.data })
  | none =>
    if expiresIn < minNameRegistrationPeriod then .error .nameTooShort
    else
      .ok (updateNameEntry st
        { name := tx.name, owner := tx.input.address, data := tx.data,
          expires := height + expiresIn })

/-- The NameTx case of `Execute` (execution.go lines 404-544).  `height`
is `exe.tip.LastBlockHeight()`. -/
def executeName (c : Crypto) (st : ExecState) (chainID : Nat) (height : Nat) (tx : NameTx) :
    ExecState × Option TxErr :=
  match nameCheck c st chainID tx with
  | .error e => (st, some e)
  | .ok (inAcc1, in1) =>
    let value := in1.amount - tx.fee
    match nameRegApply st height tx value with
    | .error e => (st, some e)
    | .ok stN =>
      let inAcc2 :=
        { inAcc1 with sequence := inAcc1.sequence + 1, balance := inAcc1.balance - value }
      let st2 := updateAccount stN inAcc2
      let st3 := fireEvent (fireEvent st2 (.accIn tx.input.address "")) (.nameRegEv tx.name)
      (st3, none)

/-- Result of one VM invocation: failure with an error message, or success
with the return bytes and the list of speculative account writes the VM
performed through the transaction cache (beyond the value transfer, which
the VM contract performs itself on success). -/
inductive VMResult
  | fail (msg : String)
  | ok (ret : List Nat) (writes : List Account)
deriving DecidableEq

/-- Modelled from the spec: the EVM collaborator (section 6).  `run`
abstracts `vmach.Call(caller, callee, code, input, value, &gas)`;
`registeredNative` abstracts `evm.RegisteredNativeContract`.  The VM
contract — value transferred iff success, no adapter writes on failure —
is enforced by `runVMPhase` below. -/
structure VMSpec where
  registeredNative : Nat → Bool
  run : Nat → Nat → List Nat → List Nat → Nat → VMResult

/-- Modelled from the spec: the deterministic derivation of a new contract
address from the creator's address and its pre-increment sequence
(section 6, `derive_new_account`).  A pairing of the two is used. -/
def contractAddress (creator seq : Nat) : Nat :=
  (creator + seq) * (creator + seq + 1) / 2 + seq

/-- Modelled from the spec: `evm.DeriveNewAccount(creator, perms)`
(section 6): increments the creator's sequence, derives the callee address
from the creator's address and pre-increment sequence, and gives the new
account the global base permissions; code is set afterward by the
executor. -/
def deriveNewAccount (creator : Account) (perms : AccountPermissions) : Account × Account :=
  let addr := contractAddress creator.address creator.sequence
  ({ creator with sequence := creator.sequence + 1 },
   { address := addr, pubKey := none, sequence := 0, balance := 0, code := [],
     permissions := perms })

/-- `permission.GlobalAccountPermissions(state)`: the global account's
permissions; a missing global account is a fatal invariant violation in
the source, modelled as zero permissions. -/
def globalAccountPermissions (st : ExecState) : AccountPermissions :=
  match getAccount st globalPermsAddr with
  | some g => g.permissions
  | none => { base := { perms := 0, setBit := 0 }, roles := [] }

/-- `TxCache.UpdateAccount`: buffer a speculative account write, keyed by
the account's address. -/
def txUpdate (txc : List (Nat × Account)) (acc : Account) : List (Nat × Account) :=
  aupsert txc acc.address acc

/-- Modify a buffered account in the transaction cache (used for the VM's
value transfer); both parties were written to the cache before the call. -/
def txAdjust (txc : List (Nat × Account)) (addr : Nat) (f : Account → Account) :
    List (Nat × Account) :=
  aadjust txc addr f

/-- The VM's value transfer through the transaction cache ("Call()
transfers the value from caller to callee iff call succeeds"). -/
def txTransfer (txc : List (Nat × Account)) (fromA toA value : Nat) : List (Nat × Account) :=
  txAdjust (txAdjust txc fromA (fun a => { a with balance := a.balance - value }))
    toA (fun a => { a with balance := a.balance + value })

/-- `callee.SetCode(ret)` on the buffered callee after a successful
creating call. -/
def txSetCode (txc : List (Nat × Account)) (addr : Nat) (ret : List Nat) :
    List (Nat × Account) :=
  txAdjust txc addr (fun a => { a with code := ret })

/-- `TxCache.Sync(blockCache)`: promote all buffered writes. -/
def txSync (txc : List (Nat × Account)) (st : ExecState) : ExecState :=
  writeAccounts st txc

/-- Fire the CallTx events (commit path only): `AccInput` for the caller
and, for a non-creating call, `AccOutput` for the target. -/
def fireCallEvents (st : ExecState) (tx : CallTx) (exception : String) : ExecState :=
  let st1 := fireEvent st (.accIn tx.input.address exception)
  match tx.address with
  | some a => fireEvent st1 (.accOut a exception)
  | none => st1

/-- The validation prefix of the CallTx case of `Execute` (execution.go
lines 211-273): input account lookup, permission check, pubkey binding,
input validation, fee coverage, native-contract rejection and callee
lookup.  Returns the validated account, the (possibly mutated) input and
the callee account (`none` for contract creation or a callee absent from
the cache). -/
def callCheck (c : Crypto) (vm : VMSpec) (st : ExecState) (chainID : Nat) (tx : CallTx) :
    Except TxErr (Account × TxInput × Option Account) :=
  match getAccount st tx.input.address with
  | none => .error .invalidAddress
  | some inAcc =>
    if tx.address = none ∧ ¬hasPermission st inAcc permCreateContract then
      .error .noCreateContractPermission
    else if tx.address ≠ none ∧ ¬hasPermission st inAcc permCall then
      .error .noCallPermission
    else
      match checkInputPubKey c inAcc tx.input with
      | .error e => .error e
      | .ok (inAcc1, in1) =>
        let signBytes := c.signBytes chainID (.call { tx with input := in1 })
        match validateInput c inAcc1 signBytes in1 with
        | some e => .error e
        | none =>
          if in1.amount < tx.fee then .error .insufficientFunds
          else
            match tx.address with
            | none => .ok (inAcc1, in1, none)
            | some outAddr =>
              if vm.registeredNative outAddr then .error .nativeContractCall
              else .ok (inAcc1, in1, getAccount st outAddr)

/-- The VM phase of the commit path (execution.go lines 342-364): write
caller and callee into the transaction cache, invoke the VM, and on
success apply the value transfer, the speculative writes, the created
code, and sync into the block cache; on failure discard the transaction
cache.  `CALL_COMPLETE` fires the events in either case and the VM error
does not escape. -/
def runVMPhase (vm : VMSpec) (st1 : ExecState) (tx : CallTx) (caller callee : Account)
    (code : List Nat) (value : Nat) (create : Bool) : ExecState × Option TxErr :=
  let txc0 := txUpdate (txUpdate [] caller) callee
  match vm.run caller.address callee.address code tx.data value with
  | .fail msg => (fireCallEvents st1 tx msg, none)
  | .ok ret writes =>
    let txc1 := txTransfer txc0 caller.address callee.address value
    let txc2 := writes.foldl txUpdate txc1
    let txc3 :=
      match create with
      | true => txSetCode txc2 callee.address ret
      | false => txc2
    (fireCallEvents (txSync txc3 st1) tx "", none)

/-- The CallTx case of `Execute` (execution.go lines 211-402).  The
check path (`runCall = false`) skips the VM, additionally debits the value
and, for creation, increments the sequence a second time; the commit path
runs the VM phase, keeping the fee when the callee is absent or holds no
code. -/
def executeCall (c : Crypto) (vm : VMSpec) (runCall : Bool) (st : ExecState) (chainID : Nat)
    (tx : CallTx) : ExecState × Option TxErr :=
  match callCheck c vm st chainID tx with
  | .error e => (st, some e)
  | .ok (inAcc1, in1, outAcc) =>
    let value := in1.amount - tx.fee
    let inAcc2 :=
      { inAcc1 with sequence := inAcc1.sequence + 1, balance := inAcc1.balance - tx.fee }
    let st1 := updateAccount st inAcc2
    match runCall with
    | true =>
      match tx.address with
      | none =>
        -- contract creation: derive the callee, code is the tx data
        let dc := deriveNewAccount inAcc2 (globalAccountPermissions st)
        runVMPhase vm st1 tx dc.1 dc.2 tx.data value true
      | some _ =>
        match outAcc with
        | none =>
          -- call to an address that does not exist: keep the fee
          (fireCallEvents st1 tx "invalid address", none)
        | some oa =>
          if oa.code = [] then
            -- call to an address that holds no code: keep the fee
            (fireCallEvents st1 tx "invalid address", none)
          else
            runVMPhase vm st1 tx inAcc2 oa oa.code value false
    | false =>
      let inAcc3 := { inAcc2 with balance := inAcc2.balance - value }
      let inAcc4 :=
        if tx.address = none then { inAcc3 with sequence := inAcc3.sequence + 1 } else inAcc3
      (updateAccount st1 inAcc4, none)

/-- `mutatePermissions` (execution.go): fetch the account at `addr` and
apply a permissions mutation to a working copy; the caller writes it
back. -/
def mutatePermissions (st : ExecState) (addr : Nat)
    (f : AccountPermissions → Except TxErr AccountPermissions) : Except TxErr Account :=
  match getAccount st addr with
  | none => .error .permAccountMissing
  | some acc =>
    match f acc.permissions with
    | .error e => .error e
    | .ok ps => .ok { acc with permissions := ps }

/-- The permission mutation selected by the `PermArgs` flag (the switch of
the PermissionsTx case, execution.go lines 726-765).  `HasBase` and
`HasRole` are rejected at the transaction boundary; an unknown flag is a
source panic, modelled as a fatal error. -/
def applyPermArgs (st : ExecState) (args : PermArgs) : Except TxErr Account :=
  if args.permFlag = permHasBase then .error .hasBaseRejected
  else if args.permFlag = permSetBase then
    mutatePermissions st args.address
      (fun ps => .ok { ps with base := baseSet ps.base args.permission args.value })
  else if args.permFlag = permUnsetBase then
    mutatePermissions st args.address
      (fun ps => .ok { ps with base := baseUnset ps.base args.permission })
  else if args.permFlag = permSetGlobal then
    mutatePermissions st globalPermsAddr
      (fun ps => .ok { ps with base := baseSet ps.base args.permission args.value })
  else if args.permFlag = permHasRole then .error .hasRoleRejected
  else if args.permFlag = permAddRole then
    mutatePermissions st args.address
      (fun ps =>
        let r := addRole ps args.role
        if r.2 then .ok r.1 else .error .roleAlreadyExists)
  else if args.permFlag = permRemoveRole then
    mutatePermissions st args.address
      (fun ps =>
        let r := rmRole ps args.role
        if r.2 then .ok r.1 else .error .roleNotFound)
  else .error (.fatal "invalid permission function")

/-- The validation prefix of the PermissionsTx case of `Execute`
(execution.go lines 686-717): input account lookup, moderator permission
for the requested flag, pubkey binding and input validation. -/
def permCheck (c : Crypto) (st : ExecState) (chainID : Nat) (tx : PermissionsTx) :
    Except TxErr (Account × TxInput) :=
  match getAccount st tx.input.address with
  | none => .error .invalidAddress
  | some inAcc =>
    if ¬hasPermission st inAcc tx.permArgs.permFlag then .error .noModeratorPermission
    else
      match checkInputPubKey c inAcc tx.input with
      | .error e => .error e
      | .ok (inAcc1, in1) =>
        let signBytes := c.signBytes chainID (.perm { tx with input := in1 })
        match validateInput c inAcc1 signBytes in1 with
        | some e => .error e
        | none => .ok (inAcc1, in1)

/-- The PermissionsTx case of `Execute` (execution.go lines 685-787). -/
def executePerm (c : Crypto) (st : ExecState) (chainID : Nat) (tx : PermissionsTx) :
    ExecState × Option TxErr :=
  match permCheck c st chainID tx with
  | .error e => (st, some e)
  | .ok (inAcc1, in1) =>
    let value := in1.amount
    match applyPermArgs st tx.permArgs with
    | .error e => (st, some e)
    | .ok permAcc =>
      let inAcc2 :=
        { inAcc1 with sequence := inAcc1.sequence + 1, balance := inAcc1.balance - value }
      let st1 := updateAccount st inAcc2
      let st2 := updateAccount st1 permAcc
      let st3 :=
        fireEvent (fireEvent st2 (.accIn tx.input.address ""))
          (.permissionsEv tx.permArgs.permFlag)
      (st3, none)

/-- `executor.Execute` (execution.go line 152): dispatch on the
transaction variant.  `runCall` distinguishes the committer from the
checker; `height` is the tip's last block height (consumed by the NameTx
case; the VM environment parameters are absorbed by the VM oracle).
Returns the new block-cache state, the accumulated fees, and the error. -/
def execute (c : Crypto) (vm : VMSpec) (runCall : Bool) (st : ExecState) (chainID height : Nat) :
    Tx → ExecState × Nat × Option TxErr
  | .send t => executeSend c st chainID t
  | .call t =>
    let r := executeCall c vm runCall st chainID t
    (r.1, 0, r.2)
  | .name t =>
    let r := executeName c st chainID height t
    (r.1, 0, r.2)
  | .perm t =>
    let r := executePerm c st chainID t
    (r.1, 0, r.2)

/-- Well-formedness of an account map or cache: every account is bound
under its own address. -/
def akeyed (l : List (Nat × Account)) : Prop :=
  ∀ p ∈ l, (p.2).address = p.1

/-- Well-formedness of a block-cache state: accounts are keyed by their
addresses and name entries by their names. -/
def wfState (st : ExecState) : Prop :=
  akeyed st.accounts ∧ ∀ p ∈ st.nameReg, (p.2).name = p.1

instance (l : List (Nat × Account)) : Decidable (akeyed l) := by
  unfold akeyed; infer_instance

instance (st : ExecState) : Decidable (wfState st) := by
  unfold wfState; exact instDecidableAnd

section AssocLemmas

variable {α β : Type} [DecidableEq α]

theorem alookup_aupsert (l : List (α × β)) (k : α) (v : β) (x : α) :
    alookup (aupsert l k v) x = if k = x then some v else alookup l x := by
  induction l with
  | nil => simp [aupsert, alookup]
  | cons p rest ih =>
    by_cases hp : p.1 = k
    · subst hp
      simp only [aupsert, if_pos rfl, alookup]
      by_cases hx : p.1 = x <;> simp [hx]
    · simp only [aupsert, if_neg hp, alookup]
      by_cases hx : p.1 = x
      · subst hx
        have : ¬k = p.1 := fun h => hp h.symm
        simp [this]
      · simp [hx, ih]

theorem map_fst_aupsert (l : List (α × β)) (k : α) (v : β) :
    (aupsert l k v).map Prod.fst =
      if k ∈ l.map Prod.fst then l.map Prod.fst else l.map Prod.fst ++ [k] := by
  induction l with
  | nil => simp [aupsert]
  | cons p rest ih =>
    by_cases hp : p.1 = k
    · subst hp; simp [aupsert]
    · have : ¬k = p.1 := fun h => hp h.symm
      simp only [aupsert, if_neg hp, List.map_cons, List.mem_cons, this, false_or]
      by_cases hk : k ∈ rest.map Prod.fst <;> simp [hk, ih]

theorem nodup_fst_aupsert (l : List (α × β)) (k : α) (v : β)
    (h : (l.map Prod.fst).Nodup) : ((aupsert l k v).map Prod.fst).Nodup := by
  rw [map_fst_aupsert]
  by_cases hk : k ∈ l.map Prod.fst
  · simpa [hk]
  · simpa [hk, List.nodup_append] using h

end AssocLemmas

theorem alookup_eq_none_of_not_mem {α β : Type} [DecidableEq α] (l : List (α × β)) (x : α)
    (h : x ∉ l.map Prod.fst) : alookup l x = none := by
  induction l with
  | nil => rfl
  | cons p rest ih =>
    simp only [List.map_cons, List.mem_cons] at h
    push_neg at h
    have hne : ¬p.1 = x := fun he => h.1 he.symm
    simp only [alookup, if_neg hne]
    exact ih h.2

theorem akeyed_aupsert {l : List (Nat × Account)} {k : Nat} {v : Account}
    (h : akeyed l) (hv : v.address = k) : akeyed (aupsert l k v) := by
  induction l with
  | nil =>
    intro p hp
    simp only [aupsert, List.mem_singleton] at hp
    simp [hp, hv]
  | cons q rest ih =>
    intro p hp
    simp only [aupsert] at hp
    by_cases hq : q.1 = k
    · rw [if_pos hq] at hp
      rcases List.mem_cons.mp hp with h1 | h2
      · simp [h1, hv]
      · exact h p (List.mem_cons_of_mem q h2)
    · rw [if_neg hq] at hp
      rcases List.mem_cons.mp hp with h1 | h2
      · exact h p (h1 ▸ List.mem_cons_self q rest)
      · exact ih (fun r hr => h r (List.mem_cons_of_mem q hr)) p h2

theorem alookup_aadjust (l : List (Nat × Account)) (a : Nat) (f : Account → Account) (x : Nat) :
    alookup (aadjust l a f) x = if a = x then (alookup l x).map f else alookup l x := by
  induction l with
  | nil => by_cases h : a = x <;> simp [aadjust, alookup, h]
  | cons p rest ih =>
    have hstep : aadjust (p :: rest) a f =
        (if p.1 = a then (p.1, f p.2) else p) :: aadjust rest a f := by
      simp [aadjust]
    rw [hstep]
    by_cases hp : p.1 = a
    · rw [if_pos hp]
      by_cases hx : p.1 = x
      · have hax : a = x := hp ▸ hx
        simp only [alookup, if_pos hx, if_pos hax, hx]
        simp [alookup]
      · have hax : ¬a = x := fun h => hx (hp.trans h)
        simp only [alookup, if_neg hx, if_neg hax, ih]
    · rw [if_neg hp]
      by_cases hx : p.1 = x
      · have hax : ¬a = x := fun h => hp (by rw [hx, ← h])
        simp only [alookup, if_pos hx, if_neg hax]
      · simp only [alookup, if_neg hx]
        exact ih

theorem map_fst_aadjust (l : List (Nat × Account)) (a : Nat) (f : Account → Account) :
    (aadjust l a f).map Prod.fst = l.map Prod.fst := by
  induction l with
  | nil => rfl
  | cons p rest ih =>
    have hstep : aadjust (p :: rest) a f =
        (if p.1 = a then (p.1, f p.2) else p) :: aadjust rest a f := by
      simp [aadjust]
    rw [hstep]
    by_cases hp : p.1 = a <;> simp [hp, ih]

theorem akeyed_aadjust {l : List (Nat × Account)} {a : Nat} {f : Account → Account}
    (h : akeyed l) (hf : ∀ b : Account, (f b).address = b.address) :
    akeyed (aadjust l a f) := by
  intro p hp
  simp only [aadjust, List.mem_map] at hp
  obtain ⟨q, hq, hqe⟩ := hp
  by_cases hk : q.1 = a
  · simp only [if_pos hk] at hqe
    have := h q hq
    simp [← hqe, hf, this]
  · simp only [if_neg hk] at hqe
    exact hqe ▸ h q hq

theorem getAccount_updateAccount (st : ExecState) (a : Account) (x : Nat) :
    getAccount (updateAccount st a) x = if a.address = x then some a else getAccount st x := by
  simp [getAccount, updateAccount, alookup_aupsert]

theorem getAccount_writeAccounts (st : ExecState) (accs : List (Nat × Account))
    (hwf : akeyed accs) (hnd : (accs.map Prod.fst).Nodup) (x : Nat) :
    getAccount (writeAccounts st accs) x =
      match alookup accs x with
      | some a => some a
      | none => getAccount st x := by
  induction accs generalizing st with
  | nil => simp [writeAccounts, alookup]
  | cons p rest ih =>
    have hwfr : akeyed rest := fun q hq => hwf q (by simp [hq])
    have hndr : (rest.map Prod.fst).Nodup := by
      simp only [List.map_cons, List.nodup_cons] at hnd; exact hnd.2
    have hnotin : p.1 ∉ rest.map Prod.fst := by
      simp only [List.map_cons, List.nodup_cons] at hnd; exact hnd.1
    have hpa : (p.2).address = p.1 := hwf p (by simp)
    have step : writeAccounts st (p :: rest) = writeAccounts (updateAccount st p.2) rest := by
      simp [writeAccounts]
    rw [step, ih (updateAccount st p.2) hwfr hndr]
    by_cases hx : p.1 = x
    · subst hx
      have hrest : alookup rest p.1 = none := alookup_eq_none_of_not_mem rest p.1 hnotin
      simp [alookup, hrest, getAccount_updateAccount, hpa]
    · have : ¬(p.2).address = x := by rw [hpa]; exact hx
      simp only [alookup, if_neg hx]
      cases halt : alookup rest x with
      | some a => simp
      | none => simp [getAccount_updateAccount, this]

theorem nameReg_updateAccount (st : ExecState) (a : Account) :
    (updateAccount st a).nameReg = st.nameReg := rfl

theorem nameReg_writeAccounts (st : ExecState) (accs : List (Nat × Account)) :
    (writeAccounts st accs).nameReg = st.nameReg := by
  induction accs generalizing st with
  | nil => rfl
  | cons p rest ih => simpa [writeAccounts] using ih (updateAccount st p.2)

theorem accounts_fireEvent (st : ExecState) (e : Event) :
    (fireEvent st e).accounts = st.accounts := rfl

theorem nameReg_fireEvent (st : ExecState) (e : Event) :
    (fireEvent st e).nameReg = st.nameReg := rfl

theorem accounts_updateNameEntry (st : ExecState) (e : NameRegEntry) :
    (updateNameEntry st e).accounts = st.accounts := rfl

theorem accounts_removeNameEntry (st : ExecState) (n : String) :
    (removeNameEntry st n).accounts = st.accounts := rfl

/-- Concrete crypto instance used by witnesses: identity address
derivation and a signature check that accepts everything. -/
def cryptoT : Crypto :=
  { pkAddress := fun n => n, verify := fun _ _ _ => true, signBytes := fun _ _ => [] }

/-- Zero account permissions. -/
def zeroPermsT : AccountPermissions := { base := { perms := 0, setBit := 0 }, roles := [] }

/-- All-permissions bitmap, for witness accounts. -/
def allPermsT : AccountPermissions :=
  { base := { perms := allPermFlags, setBit := allPermFlags }, roles := [] }

/-- C7: `validateInput` returns nil exactly when the basic input check
passes, the signature verifies under the account's key, the input sequence
is the account sequence plus one, and the balance covers the amount; a
failing signature is reported before the sequence is examined, a sequence
mismatch yields `InvalidSequence(got, expected)` before the balance is
examined, and a short balance yields `InsufficientFunds`. -/
theorem c7_validateInput_spec (c : Crypto) (acc : Account) (sb : List Nat) (i : TxInput) :
    (validateInput c acc sb i = none ↔
      (basicValidInput c i = true ∧ accVerify c acc sb i.signature = true ∧
        i.sequence = acc.sequence + 1 ∧ i.amount ≤ acc.balance)) ∧
    (basicValidInput c i = true → accVerify c acc sb i.signature = false →
      validateInput c acc sb i = some .invalidSignature) ∧
    (basicValidInput c i = true → accVerify c acc sb i.signature = true →
      acc.sequence + 1 ≠ i.sequence →
      validateInput c acc sb i = some (.invalidSequence i.sequence (acc.sequence + 1))) ∧
    (basicValidInput c i = true → accVerify c acc sb i.signature = true →
      i.sequence = acc.sequence + 1 → acc.balance < i.amount →
      validateInput c acc sb i = some .insufficientFunds) := by
  unfold validateInput
  split_ifs with h1 h2 h3 h4 <;> first
  | (simp_all; omega)
  | simp_all

/-- Witness for C7: a concrete input whose sequence is 5 against an
account at sequence 1 is rejected with `InvalidSequence(got 5, expected
2)`. -/
theorem c7_witness :
    validateInput cryptoT
      { address := 3, pubKey := some 3, sequence := 1, balance := 50, code := [],
        permissions := zeroPermsT } []
      { address := 3, amount := 10, sequence := 5, signature := [1], pubKey := none } =
      some (.invalidSequence 5 2) :=
  (c7_validateInput_spec cryptoT
      { address := 3, pubKey := some 3, sequence := 1, balance := 50, code := [],
        permissions := zeroPermsT } []
      { address := 3, amount := 10, sequence := 5, signature := [1], pubKey := none }).2.2.1
    (by decide) (by decide) (by decide)

/-- C4 counterexample: with an account that has no public key and an input
carrying the matching key, binding succeeds and updates the account, but
the returned input still carries its pubkey — it is NOT cleared, contrary
to the claim (the source clears `in.PubKey` only in the branch where the
account already has a key). -/
theorem c4_counterexample :
    checkInputPubKey cryptoT
        { address := 5, pubKey := none, sequence := 0, balance := 10, code := [],
          permissions := zeroPermsT }
        { address := 5, amount := 1, sequence := 1, signature := [1], pubKey := some 5 } =
      .ok ({ address := 5, pubKey := some 5, sequence := 0, balance := 10, code := [],
              permissions := zeroPermsT },
           { address := 5, amount := 1, sequence := 1, signature := [1], pubKey := some 5 }) ∧
    (some 5 : Option Nat) ≠ none := by
  exact ⟨rfl, by decide⟩

/-- C4 as amended: if the cached account has no public key the step fails
unless the input carries a key whose derived address equals the account's
address, and on success the account is updated with that key while the
input is returned unchanged (its pubkey is NOT cleared); if the account
already has a public key, any input-provided pubkey is dropped from the
input. -/
theorem c4_checkInputPubKey_spec (c : Crypto) (acc : Account) (i : TxInput) :
    (acc.pubKey = none → i.pubKey = none →
      checkInputPubKey c acc i = .error .unknownPubKey) ∧
    (∀ pk, acc.pubKey = none → i.pubKey = some pk → c.pkAddress pk ≠ acc.address →
      checkInputPubKey c acc i = .error .invalidPubKey) ∧
    (∀ pk, acc.pubKey = none → i.pubKey = some pk → c.pkAddress pk = acc.address →
      checkInputPubKey c acc i = .ok ({ acc with pubKey := some pk }, i)) ∧
    (∀ pk0, acc.pubKey = some pk0 →
      checkInputPubKey c acc i = .ok (acc, { i with pubKey := none })) := by
  unfold checkInputPubKey
  refine ⟨?_, ?_, ?_, ?_⟩
  · intro ha hi; rw [ha, hi]
  · intro pk ha hi hne; rw [ha, hi]; simp [hne]
  · intro pk ha hi he; rw [ha, hi]; simp [he]
  · intro pk0 ha; rw [ha]

theorem alookup_mem {α β : Type} [DecidableEq α] {l : List (α × β)} {k : α} {v : β}
    (h : alookup l k = some v) : (k, v) ∈ l := by
  induction l with
  | nil => cases h
  | cons p rest ih =>
    by_cases hp : p.1 = k
    · simp only [alookup, if_pos hp] at h
      have hkv : (k, v) = p := by
        obtain ⟨p1, p2⟩ := p
        simp only [Option.some.injEq] at h
        simp_all
      rw [hkv]
      exact List.mem_cons_self p rest
    · simp only [alookup, if_neg hp] at h
      exact List.mem_cons_of_mem p (ih h)

theorem getAccount_address {st : ExecState} {addr : Nat} {acc : Account}
    (hwf : akeyed st.accounts) (h : getAccount st addr = some acc) : acc.address = addr :=
  hwf (addr, acc) (alookup_mem h)

theorem checkInputPubKey_fields {c : Crypto} {acc : Account} {i : TxInput} {acc1 : Account}
    {i1 : TxInput} (h : checkInputPubKey c acc i = .ok (acc1, i1)) :
    acc1.address = acc.address ∧ acc1.sequence = acc.sequence ∧ acc1.balance = acc.balance ∧
      i1.address = i.address ∧ i1.amount = i.amount ∧ i1.sequence = i.sequence ∧
      i1.signature = i.signature := by
  unfold checkInputPubKey at h
  cases hacc : acc.pubKey with
  | none =>
    rw [hacc] at h
    cases hik : i.pubKey with
    | none => rw [hik] at h; simp at h
    | some pk =>
      rw [hik] at h
      dsimp only at h
      by_cases hne : c.pkAddress pk ≠ acc.address
      · rw [if_pos hne] at h; simp at h
      · rw [if_neg hne] at h
        simp only [Except.ok.injEq, Prod.mk.injEq] at h
        obtain ⟨ha, hi⟩ := h
        subst ha
        subst hi
        simp
  | some pk0 =>
    rw [hacc] at h
    simp only [Except.ok.injEq, Prod.mk.injEq] at h
    obtain ⟨ha, hi⟩ := h
    subst ha
    subst hi
    simp

theorem validateInput_none {c : Crypto} {acc : Account} {sb : List Nat} {i : TxInput}
    (h : validateInput c acc sb i = none) :
    i.amount ≤ acc.balance ∧ i.sequence = acc.sequence + 1 := by
  unfold validateInput at h
  split_ifs at h with h1 h2 h3 h4
  omega

theorem nameCheck_ok {c : Crypto} {st : ExecState} {cid : Nat} {tx : NameTx}
    {inAcc1 : Account} {in1 : TxInput} (h : nameCheck c st cid tx = .ok (inAcc1, in1)) :
    ∃ inAcc, getAccount st tx.input.address = some inAcc ∧
      checkInputPubKey c inAcc tx.input = .ok (inAcc1, in1) ∧
      validateInput c inAcc1 (c.signBytes cid (.name { tx with input := in1 })) in1 = none ∧
      tx.fee ≤ in1.amount := by
  unfold nameCheck at h
  cases hacc : getAccount st tx.input.address with
  | none => rw [hacc] at h; simp at h
  | some inAcc =>
    rw [hacc] at h
    dsimp only at h
    by_cases h1 : ¬hasPermission st inAcc permName
    · rw [if_pos h1] at h; simp at h
    · rw [if_neg h1] at h
      cases hcp : checkInputPubKey c inAcc tx.input with
      | error e => rw [hcp] at h; simp at h
      | ok pr =>
        obtain ⟨a1, j1⟩ := pr
        rw [hcp] at h
        dsimp only at h
        cases hv : validateInput c a1 (c.signBytes cid (.name { tx with input := j1 })) j1 with
        | some e => rw [hv] at h; simp at h
        | none =>
          rw [hv] at h
          dsimp only at h
          by_cases h2 : j1.amount < tx.fee
          · rw [if_pos h2] at h; simp at h
          · rw [if_neg h2] at h
            by_cases h3 : ¬validNameTxStrings tx
            · rw [if_pos h3] at h; simp at h
            · rw [if_neg h3] at h
              simp only [Except.ok.injEq, Prod.mk.injEq] at h
              obtain ⟨ha, hi⟩ := h
              subst ha
              subst hi
              exact ⟨inAcc, rfl, hcp, hv, by omega⟩

theorem nameRegApply_accounts {st : ExecState} {height : Nat} {tx : NameTx} {value : Nat}
    {stN : ExecState} (h : nameRegApply st height tx value = .ok stN) :
    stN.accounts = st.accounts ∧ stN.events = st.events := by
  unfold nameRegApply at h
  cases he : getNameEntry st tx.name with
  | some entry =>
    rw [he] at h
    dsimp only at h
    split_ifs at h with h1 h2 h3 h4 h5 <;>
      (simp only [Except.ok.injEq] at h; subst h; simp [updateNameEntry, removeNameEntry])
  | none =>
    rw [he] at h
    dsimp only at h
    split_ifs at h with h1
    simp only [Except.ok.injEq] at h
    subst h
    simp [updateNameEntry]

theorem getNameEntry_updateNameEntry (st : ExecState) (e : NameRegEntry) (x : String) :
    getNameEntry (updateNameEntry st e) x =
      if e.name = x then some e else getNameEntry st x := by
  simp [getNameEntry, updateNameEntry, alookup_aupsert]

theorem alookup_aremove {α β : Type} [DecidableEq α] (l : List (α × β)) (n x : α) :
    alookup (aremove l n) x = if x = n then none else alookup l x := by
  induction l with
  | nil => by_cases h : x = n <;> simp [alookup, aremove, h]
  | cons p rest ih =>
    by_cases hp : p.1 = n
    · rw [aremove, if_pos hp, ih]
      by_cases hx : x = n
      · simp [hx]
      · have hpx : ¬p.1 = x := fun he => hx (he.symm.trans hp)
        simp [alookup, hpx, hx]
    · rw [aremove, if_neg hp]
      by_cases hx : x = n
      · subst hx
        simp [alookup, hp, ih]
      · simp [alookup, ih, hx]

theorem getNameEntry_removeNameEntry (st : ExecState) (n x : String) :
    getNameEntry (removeNameEntry st n) x = if x = n then none else getNameEntry st x := by
  simp [getNameEntry, removeNameEntry, alookup_aremove]

/-- Witness for C4: an account that already holds a key drops the
input-provided pubkey. -/
theorem c4_witness :
    checkInputPubKey cryptoT
        { address := 3, pubKey := some 3, sequence := 0, balance := 0, code := [],
          permissions := zeroPermsT }
        { address := 3, amount := 1, sequence := 1, signature := [1], pubKey := some 9 } =
      .ok ({ address := 3, pubKey := some 3, sequence := 0, balance := 0, code := [],
              permissions := zeroPermsT },
           { address := 3, amount := 1, sequence := 1, signature := [1], pubKey := none }) :=
  (c4_checkInputPubKey_spec cryptoT
      { address := 3, pubKey := some 3, sequence := 0, balance := 0, code := [],
        permissions := zeroPermsT }
      { address := 3, amount := 1, sequence := 1, signature := [1], pubKey := some 9 }).2.2.2
    3 rfl

/-- C3: for an existing non-expired name entry registered at the current
height by its owner with value `v` (so `expires = height + v /
cost_per_block`), a second NameTx at the same height from the same owner
with the same name, the same (non-empty) data and value 0 leaves the
entry's expires field unchanged: the credit-preservation rule recomputes
`(expires − height) · base / cost_per_block = expires − height`, and every
rejection path leaves the registry untouched. -/
theorem c3_name_credit_roundtrip (c : Crypto) (st : ExecState) (cid H v : Nat) (tx : NameTx)
    (e : NameRegEntry)
    (h_entry : getNameEntry st tx.name = some e)
    (h_name : e.name = tx.name)
    (h_owner : e.owner = tx.input.address)
    (h_exp : e.expires = H + v / nameCostPerBlock (nameBaseCost tx.name tx.data))
    (h_live : H < e.expires)
    (h_data : e.data = tx.data)
    (h_ne : tx.data ≠ [])
    (h_val : tx.input.amount = tx.fee) :
    (getNameEntry (executeName c st cid H tx).1 tx.name).map (fun en => en.expires) =
      some e.expires := by
  unfold executeName
  cases hchk : nameCheck c st cid tx with
  | error er => simp [h_entry]
  | ok pr =>
    obtain ⟨inAcc1, in1⟩ := pr
    dsimp only
    obtain ⟨inAcc, hacc, hcp, hv2, hfee⟩ := nameCheck_ok hchk
    have hfields := checkInputPubKey_fields hcp
    have hval : in1.amount - tx.fee = 0 := by
      have := hfields.2.2.2.2.1
      omega
    rw [hval]
    cases hra : nameRegApply st H tx 0 with
    | error er => simp [h_entry]
    | ok stN =>
      dsimp only
      have hstN : getNameEntry stN tx.name =
          some { e with expires := e.expires, data := tx.data } := by
        unfold nameRegApply at hra
        rw [h_entry] at hra
        dsimp only at hra
        have hc1 : ¬(e.expires > H ∧ e.owner ≠ tx.input.address) := by
          intro hcon
          exact hcon.2 h_owner
        rw [if_neg hc1] at hra
        have hc2 : ¬((0 : Nat) = 0 ∧ tx.data = []) := by
          intro hcon
          exact h_ne hcon.2
        rw [if_neg hc2] at hra
        have hc3 : ¬¬(e.expires > H) := not_not_intro h_live
        rw [if_neg hc3] at hra
        have hbase : nameBaseCost e.name e.data = nameBaseCost tx.name tx.data := by
          rw [h_name, h_data]
        have hdiv : ((e.expires - H) * nameBaseCost e.name e.data + 0) /
            nameCostPerBlock (nameBaseCost tx.name tx.data) = e.expires - H := by
          rw [hbase, Nat.add_zero]
          unfold nameCostPerBlock
          have hpos : 0 < nameBaseCost tx.name tx.data := by
            unfold nameBaseCost
            omega
          exact Nat.mul_div_cancel _ hpos
        rw [hdiv] at hra
        by_cases hmin : e.expires - H < minNameRegistrationPeriod
        · rw [if_pos hmin] at hra
          simp at hra
        · rw [if_neg hmin] at hra
          simp only [Except.ok.injEq] at hra
          subst hra
          rw [getNameEntry_updateNameEntry]
          have hHe : H + (e.expires - H) = e.expires := by omega
          simp [h_name, hHe]
      have hfinal : ∀ (a2 : Account) (ev1 ev2 : Event),
          getNameEntry (fireEvent (fireEvent (updateAccount stN a2) ev1) ev2) tx.name =
            getNameEntry stN tx.name := fun _ _ _ => rfl
      rw [hfinal, hstN]
      rfl

/-- Witness for C3: a concrete owner extends its live entry at the same
height with value 0 and the expiry 105 is preserved. -/
theorem c3_witness :
    (getNameEntry
        (executeName cryptoT
          { accounts := [(1, { address := 1, pubKey := some 1, sequence := 0, balance := 100,
                               code := [], permissions := allPermsT })],
            nameReg := [("b", { name := "b", owner := 1, data := [3], expires := 105 })],
            events := [] } 7 100
          { input := { address := 1, amount := 5, sequence := 1, signature := [9],
                       pubKey := none },
            name := "b", data := [3], fee := 5 }).1 "b").map (fun en => en.expires) =
      some 105 :=
  c3_name_credit_roundtrip cryptoT
    { accounts := [(1, { address := 1, pubKey := some 1, sequence := 0, balance := 100,
                         code := [], permissions := allPermsT })],
      nameReg := [("b", { name := "b", owner := 1, data := [3], expires := 105 })],
      events := [] } 7 100 170
    { input := { address := 1, amount := 5, sequence := 1, signature := [9], pubKey := none },
      name := "b", data := [3], fee := 5 }
    { name := "b", owner := 1, data := [3], expires := 105 }
    (by decide) (by decide) (by decide) (by decide) (by decide) (by decide) (by decide)
    (by decide)

/-- C10: a NameTx with value 0 (amount equal to fee) and empty data naming
an existing entry whose expiry is not above the current height removes the
entry and succeeds, for any sender that passes the validation prefix —
owner or not — and the `MinNameRegistrationPeriod` requirement is not
applied to this deletion (the theorem carries no minimum-period
hypothesis, and `expires_in` is 0 here). -/
theorem c10_expired_delete (c : Crypto) (st : ExecState) (cid H : Nat) (tx : NameTx)
    (inAcc1 : Account) (in1 : TxInput) (e : NameRegEntry)
    (h_chk : nameCheck c st cid tx = .ok (inAcc1, in1))
    (h_amount : tx.input.amount = tx.fee)
    (h_data : tx.data = [])
    (h_entry : getNameEntry st tx.name = some e)
    (h_name : e.name = tx.name)
    (h_expired : e.expires ≤ H) :
    (executeName c st cid H tx).2 = none ∧
      getNameEntry (executeName c st cid H tx).1 tx.name = none := by
  unfold executeName
  rw [h_chk]
  dsimp only
  obtain ⟨inAcc, hacc, hcp, hv2, hfee⟩ := nameCheck_ok h_chk
  have hfields := checkInputPubKey_fields hcp
  have hval : in1.amount - tx.fee = 0 := by
    have := hfields.2.2.2.2.1
    omega
  rw [hval]
  have hra : nameRegApply st H tx 0 = .ok (removeNameEntry st e.name) := by
    unfold nameRegApply
    rw [h_entry]
    dsimp only
    have hc1 : ¬(e.expires > H ∧ e.owner ≠ tx.input.address) := by
      intro hcon
      omega
    rw [if_neg hc1]
    have hc2 : (0 : Nat) = 0 ∧ tx.data = [] := ⟨rfl, h_data⟩
    rw [if_pos hc2]
  rw [hra]
  dsimp only
  refine ⟨rfl, ?_⟩
  have hfinal : ∀ (a2 : Account) (ev1 ev2 : Event),
      getNameEntry (fireEvent (fireEvent (updateAccount (removeNameEntry st e.name) a2) ev1)
          ev2) tx.name =
        getNameEntry (removeNameEntry st e.name) tx.name := fun _ _ _ => rfl
  rw [hfinal, getNameEntry_removeNameEntry, if_pos h_name.symm]

/-- Witness for C10: a sender distinct from the entry's owner deletes an
expired entry with an amount-equals-fee, empty-data NameTx. -/
theorem c10_witness :
    (executeName cryptoT
        { accounts := [(1, { address := 1, pubKey := some 1, sequence := 0, balance := 100,
                             code := [], permissions := allPermsT })],
          nameReg := [("b", { name := "b", owner := 2, data := [3], expires := 50 })],
          events := [] } 7 100
        { input := { address := 1, amount := 5, sequence := 1, signature := [9],
                     pubKey := none },
          name := "b", data := [], fee := 5 }).2 = none ∧
      getNameEntry
        (executeName cryptoT
          { accounts := [(1, { address := 1, pubKey := some 1, sequence := 0, balance := 100,
                               code := [], permissions := allPermsT })],
            nameReg := [("b", { name := "b", owner := 2, data := [3], expires := 50 })],
            events := [] } 7 100
          { input := { address := 1, amount := 5, sequence := 1, signature := [9],
                       pubKey := none },
            name := "b", data := [], fee := 5 }).1 "b" = none :=
  c10_expired_delete cryptoT
    { accounts := [(1, { address := 1, pubKey := some 1, sequence := 0, balance := 100,
                         code := [], permissions := allPermsT })],
      nameReg := [("b", { name := "b", owner := 2, data := [3], expires := 50 })],
      events := [] } 7 100
    { input := { address := 1, amount := 5, sequence := 1, signature := [9], pubKey := none },
      name := "b", data := [], fee := 5 }
    { address := 1, pubKey := some 1, sequence := 0, balance := 100, code := [],
      permissions := allPermsT }
    { address := 1, amount := 5, sequence := 1, signature := [9], pubKey := none }
    { name := "b", owner := 2, data := [3], expires := 50 }
    rfl (by decide) (by decide) (by decide) (by decide) (by decide)

theorem alookup_append {α β : Type} [DecidableEq α] (l1 l2 : List (α × β)) (k : α) :
    alookup (l1 ++ l2) k =
      match alookup l1 k with
      | some v => some v
      | none => alookup l2 k := by
  induction l1 with
  | nil => simp [alookup]
  | cons p rest ih =>
    by_cases hp : p.1 = k <;> simp [alookup, hp, ih]

theorem not_mem_of_alookup_eq_none {α β : Type} [DecidableEq α] {l : List (α × β)} {x : α}
    (h : alookup l x = none) : x ∉ l.map Prod.fst := by
  induction l with
  | nil => simp
  | cons p rest ih =>
    by_cases hp : p.1 = x
    · simp only [alookup, if_pos hp] at h
      cases h
    · simp only [alookup, if_neg hp] at h
      simp only [List.map_cons, List.mem_cons]
      push_neg
      exact ⟨fun he => hp he.symm, ih h⟩

theorem accounts_foldl_fire {β : Type} (g : β → Event) (l : List β) (st : ExecState) :
    (l.foldl (fun s b => fireEvent s (g b)) st).accounts = st.accounts := by
  induction l generalizing st with
  | nil => rfl
  | cons b rest ih => simpa using ih (fireEvent st (g b))

theorem accounts_fireSendEvents (st : ExecState) (tx : SendTx) :
    (fireSendEvents st tx).accounts = st.accounts := by
  unfold fireSendEvents
  rw [accounts_foldl_fire, accounts_foldl_fire]

theorem nameReg_foldl_fire {β : Type} (g : β → Event) (l : List β) (st : ExecState) :
    (l.foldl (fun s b => fireEvent s (g b)) st).nameReg = st.nameReg := by
  induction l generalizing st with
  | nil => rfl
  | cons b rest ih => simpa using ih (fireEvent st (g b))

theorem nameReg_fireSendEvents (st : ExecState) (tx : SendTx) :
    (fireSendEvents st tx).nameReg = st.nameReg := by
  unfold fireSendEvents
  rw [nameReg_foldl_fire, nameReg_foldl_fire]

/-- The fields of a transaction input other than the public key, which is
the only field `checkInputPubKey` mutates. -/
def inCore (i : TxInput) : Nat × Nat × Nat × List Nat :=
  (i.address, i.amount, i.sequence, i.signature)

theorem getInputs_prefix {c : Crypto} {st : ExecState} {ins : List TxInput}
    {accs accsF : List (Nat × Account)} {ins1 : List TxInput}
    (h : getInputs c st ins accs = .ok (accsF, ins1)) :
    ∃ delta, accsF = accs ++ delta ∧ delta.map Prod.fst = ins.map (fun i => i.address) := by
  induction ins generalizing accs ins1 with
  | nil =>
    unfold getInputs at h
    simp only [Except.ok.injEq, Prod.mk.injEq] at h
    exact ⟨[], by simp [h.1.symm], by simp⟩
  | cons i rest ih =>
    unfold getInputs at h
    by_cases hdup : (alookup accs i.address).isSome
    · rw [if_pos hdup] at h; simp at h
    · rw [if_neg hdup] at h
      cases hacc : getAccount st i.address with
      | none => rw [hacc] at h; simp at h
      | some acc =>
        rw [hacc] at h
        dsimp only at h
        cases hcp : checkInputPubKey c acc i with
        | error e => rw [hcp] at h; simp at h
        | ok pr =>
          obtain ⟨acc1, i1⟩ := pr
          rw [hcp] at h
          dsimp only at h
          cases hrec : getInputs c st rest (accs ++ [(i.address, acc1)]) with
          | error e => rw [hrec] at h; simp at h
          | ok prF =>
            obtain ⟨accsF2, restF⟩ := prF
            rw [hrec] at h
            simp only [Except.ok.injEq, Prod.mk.injEq] at h
            obtain ⟨haccsF, hins1⟩ := h
            subst haccsF
            obtain ⟨d, hd, hdm⟩ := ih hrec
            refine ⟨(i.address, acc1) :: d, ?_, ?_⟩
            · rw [hd]
              simp
            · simp [hdm]

theorem getInputs_cores {c : Crypto} {st : ExecState} {ins : List TxInput}
    {accs accsF : List (Nat × Account)} {ins1 : List TxInput}
    (h : getInputs c st ins accs = .ok (accsF, ins1)) :
    ins1.map inCore = ins.map inCore := by
  induction ins generalizing accs ins1 with
  | nil =>
    unfold getInputs at h
    simp only [Except.ok.injEq, Prod.mk.injEq] at h
    simp [h.2.symm]
  | cons i rest ih =>
    unfold getInputs at h
    by_cases hdup : (alookup accs i.address).isSome
    · rw [if_pos hdup] at h; simp at h
    · rw [if_neg hdup] at h
      cases hacc : getAccount st i.address with
      | none => rw [hacc] at h; simp at h
      | some acc =>
        rw [hacc] at h
        dsimp only at h
        cases hcp : checkInputPubKey c acc i with
        | error e => rw [hcp] at h; simp at h
        | ok pr =>
          obtain ⟨acc1, i1⟩ := pr
          rw [hcp] at h
          dsimp only at h
          cases hrec : getInputs c st rest (accs ++ [(i.address, acc1)]) with
          | error e => rw [hrec] at h; simp at h
          | ok prF =>
            obtain ⟨accsF2, restF⟩ := prF
            rw [hrec] at h
            simp only [Except.ok.injEq, Prod.mk.injEq] at h
            obtain ⟨haccsF, hins1⟩ := h
            subst haccsF
            have hif := checkInputPubKey_fields hcp
            rw [← hins1]
            simp only [List.map_cons]
            rw [ih hrec]
            unfold inCore
            simp [hif.2.2.2.1, hif.2.2.2.2.1, hif.2.2.2.2.2.1, hif.2.2.2.2.2.2]

theorem getInputs_nodup {c : Crypto} {st : ExecState} {ins : List TxInput}
    {accs accsF : List (Nat × Account)} {ins1 : List TxInput}
    (h : getInputs c st ins accs = .ok (accsF, ins1))
    (hnd : (accs.map Prod.fst).Nodup) : (accsF.map Prod.fst).Nodup := by
  induction ins generalizing accs ins1 with
  | nil =>
    unfold getInputs at h
    simp only [Except.ok.injEq, Prod.mk.injEq] at h
    rw [← h.1]
    exact hnd
  | cons i rest ih =>
    unfold getInputs at h
    by_cases hdup : (alookup accs i.address).isSome
    · rw [if_pos hdup] at h; simp at h
    · rw [if_neg hdup] at h
      cases hacc : getAccount st i.address with
      | none => rw [hacc] at h; simp at h
      | some acc =>
        rw [hacc] at h
        dsimp only at h
        cases hcp : checkInputPubKey c acc i with
        | error e => rw [hcp] at h; simp at h
        | ok pr =>
          obtain ⟨acc1, i1⟩ := pr
          rw [hcp] at h
          dsimp only at h
          cases hrec : getInputs c st rest (accs ++ [(i.address, acc1)]) with
          | error e => rw [hrec] at h; simp at h
          | ok prF =>
            obtain ⟨accsF2, restF⟩ := prF
            rw [hrec] at h
            simp only [Except.ok.injEq, Prod.mk.injEq] at h
            obtain ⟨haccsF, hins1⟩ := h
            subst haccsF
            refine ih hrec ?_
            have hnotin : i.address ∉ accs.map Prod.fst := by
              apply not_mem_of_alookup_eq_none
              cases hlk : alookup accs i.address with
              | none => rfl
              | some v => rw [hlk] at hdup; simp at hdup
            simp [List.nodup_append, hnd, hnotin]

theorem getInputs_akeyed {c : Crypto} {st : ExecState} {ins : List TxInput}
    {accs accsF : List (Nat × Account)} {ins1 : List TxInput}
    (h : getInputs c st ins accs = .ok (accsF, ins1))
    (hwf : akeyed st.accounts) (hk : akeyed accs) : akeyed accsF := by
  induction ins generalizing accs ins1 with
  | nil =>
    unfold getInputs at h
    simp only [Except.ok.injEq, Prod.mk.injEq] at h
    rw [← h.1]
    exact hk
  | cons i rest ih =>
    unfold getInputs at h
    by_cases hdup : (alookup accs i.address).isSome
    · rw [if_pos hdup] at h; simp at h
    · rw [if_neg hdup] at h
      cases hacc : getAccount st i.address with
      | none => rw [hacc] at h; simp at h
      | some acc =>
        rw [hacc] at h
        dsimp only at h
        cases hcp : checkInputPubKey c acc i with
        | error e => rw [hcp] at h; simp at h
        | ok pr =>
          obtain ⟨acc1, i1⟩ := pr
          rw [hcp] at h
          dsimp only at h
          cases hrec : getInputs c st rest (accs ++ [(i.address, acc1)]) with
          | error e => rw [hrec] at h; simp at h
          | ok prF =>
            obtain ⟨accsF2, restF⟩ := prF
            rw [hrec] at h
            simp only [Except.ok.injEq, Prod.mk.injEq] at h
            obtain ⟨haccsF, hins1⟩ := h
            subst haccsF
            refine ih hrec ?_
            intro p hp
            rcases List.mem_append.mp hp with hmem | hmem
            · exact hk p hmem
            · have hp1 : p = (i.address, acc1) := by simpa using hmem
              have ha1 : acc1.address = acc.address := (checkInputPubKey_fields hcp).1
              have ha0 : acc.address = i.address := getAccount_address hwf hacc
              rw [hp1]
              simp [ha1, ha0]

theorem getInputs_accounts {c : Crypto} {st : ExecState} {ins : List TxInput}
    {accs accsF : List (Nat × Account)} {ins1 : List TxInput}
    (h : getInputs c st ins accs = .ok (accsF, ins1)) :
    ∀ j ∈ ins, ∃ a0 a1,
      getAccount st j.address = some a0 ∧ alookup accsF j.address = some a1 ∧
        a1.address = a0.address ∧ a1.sequence = a0.sequence ∧ a1.balance = a0.balance := by
  induction ins generalizing accs ins1 with
  | nil => intro j hj; cases hj
  | cons i rest ih =>
    unfold getInputs at h
    by_cases hdup : (alookup accs i.address).isSome
    · rw [if_pos hdup] at h; simp at h
    · rw [if_neg hdup] at h
      cases hacc : getAccount st i.address with
      | none => rw [hacc] at h; simp at h
      | some acc =>
        rw [hacc] at h
        dsimp only at h
        cases hcp : checkInputPubKey c acc i with
        | error e => rw [hcp] at h; simp at h
        | ok pr =>
          obtain ⟨acc1, i1⟩ := pr
          rw [hcp] at h
          dsimp only at h
          cases hrec : getInputs c st rest (accs ++ [(i.address, acc1)]) with
          | error e => rw [hrec] at h; simp at h
          | ok prF =>
            obtain ⟨accsF2, restF⟩ := prF
            rw [hrec] at h
            simp only [Except.ok.injEq, Prod.mk.injEq] at h
            obtain ⟨haccsF, hins1⟩ := h
            subst haccsF
            intro j hj
            rcases List.mem_cons.mp hj with hj1 | hj2
            · subst hj1
              have hfld := checkInputPubKey_fields hcp
              refine ⟨acc, acc1, hacc, ?_, hfld.1, hfld.2.1, hfld.2.2.1⟩
              obtain ⟨d, hd, hdm⟩ := getInputs_prefix hrec
              rw [hd]
              have hlacc : alookup accs j.address = none := by
                cases hlk : alookup accs j.address with
                | none => rfl
                | some v => rw [hlk] at hdup; simp at hdup
              rw [List.append_assoc, alookup_append, hlacc]
              simp [alookup]
            · exact ih hrec j hj2

theorem getOrMakeOutputs_prefix {st : ExecState} {outs : List TxOutput} {checked : Bool}
    {accs accs2 : List (Nat × Account)}
    (h : getOrMakeOutputs st checked accs outs = .ok accs2) :
    ∃ delta, accs2 = accs ++ delta ∧ delta.map Prod.fst = outs.map (fun o => o.address) := by
  induction outs generalizing accs checked with
  | nil =>
    unfold getOrMakeOutputs at h
    simp only [Except.ok.injEq] at h
    exact ⟨[], by simp [h.symm], by simp⟩
  | cons o rest ih =>
    unfold getOrMakeOutputs at h
    by_cases hdup : (alookup accs o.address).isSome
    · rw [if_pos hdup] at h; simp at h
    · rw [if_neg hdup] at h
      cases hacc : getAccount st o.address with
      | some acc =>
        rw [hacc] at h
        dsimp only at h
        obtain ⟨d, hd, hdm⟩ := ih h
        exact ⟨(o.address, acc) :: d, by rw [hd]; simp, by simp [hdm]⟩
      | none =>
        rw [hacc] at h
        dsimp only at h
        by_cases hperm : ¬checked = true ∧ ¬hasCreateAccountPerm st accs = true
        · rw [if_pos hperm] at h; simp at h
        · rw [if_neg hperm] at h
          obtain ⟨d, hd, hdm⟩ := ih h
          exact ⟨(o.address, freshAccount o.address) :: d, by rw [hd]; simp, by simp [hdm]⟩

theorem getOrMakeOutputs_accounts {st : ExecState} {outs : List TxOutput} {checked : Bool}
    {accs accs2 : List (Nat × Account)}
    (h : getOrMakeOutputs st checked accs outs = .ok accs2) :
    ∀ o ∈ outs, o.address ∉ accs.map Prod.fst ∧
      alookup accs2 o.address =
        some (match getAccount st o.address with
              | some b => b
              | none => freshAccount o.address) := by
  induction outs generalizing accs checked with
  | nil => intro o ho; cases ho
  | cons o rest ih =>
    unfold getOrMakeOutputs at h
    by_cases hdup : (alookup accs o.address).isSome
    · rw [if_pos hdup] at h; simp at h
    · rw [if_neg hdup] at h
      have hlacc : alookup accs o.address = none := by
        cases hlk : alookup accs o.address with
        | none => rfl
        | some v => rw [hlk] at hdup; simp at hdup
      have hnotin : o.address ∉ accs.map Prod.fst := not_mem_of_alookup_eq_none hlacc
      cases hacc : getAccount st o.address with
      | some acc =>
        rw [hacc] at h
        dsimp only at h
        intro j hj
        rcases List.mem_cons.mp hj with hj1 | hj2
        · subst hj1
          refine ⟨hnotin, ?_⟩
          obtain ⟨d, hd, hdm⟩ := getOrMakeOutputs_prefix h
          rw [hd, List.append_assoc, alookup_append, hlacc]
          simp [alookup, hacc]
        · have := ih h j hj2
          refine ⟨?_, this.2⟩
          intro hmem
          exact this.1 (by simp [hmem])
      | none =>
        rw [hacc] at h
        dsimp only at h
        by_cases hperm : ¬checked = true ∧ ¬hasCreateAccountPerm st accs = true
        · rw [if_pos hperm] at h; simp at h
        · rw [if_neg hperm] at h
          intro j hj
          rcases List.mem_cons.mp hj with hj1 | hj2
          · subst hj1
            refine ⟨hnotin, ?_⟩
            obtain ⟨d, hd, hdm⟩ := getOrMakeOutputs_prefix h
            rw [hd, List.append_assoc, alookup_append, hlacc]
            simp [alookup, hacc]
          · have := ih h j hj2
            refine ⟨?_, this.2⟩
            intro hmem
            exact this.1 (by simp [hmem])

theorem getOrMakeOutputs_nodup {st : ExecState} {outs : List TxOutput} {checked : Bool}
    {accs accs2 : List (Nat × Account)}
    (h : getOrMakeOutputs st checked accs outs = .ok accs2)
    (hnd : (accs.map Prod.fst).Nodup) : (accs2.map Prod.fst).Nodup := by
  induction outs generalizing accs checked with
  | nil =>
    unfold getOrMakeOutputs at h
    simp only [Except.ok.injEq] at h
    rw [← h]
    exact hnd
  | cons o rest ih =>
    unfold getOrMakeOutputs at h
    by_cases hdup : (alookup accs o.address).isSome
    · rw [if_pos hdup] at h; simp at h
    · rw [if_neg hdup] at h
      have hlacc : alookup accs o.address = none := by
        cases hlk : alookup accs o.address with
        | none => rfl
        | some v => rw [hlk] at hdup; simp at hdup
      have hnotin : o.address ∉ accs.map Prod.fst := not_mem_of_alookup_eq_none hlacc
      cases hacc : getAccount st o.address with
      | some acc =>
        rw [hacc] at h
        dsimp only at h
        exact ih h (by simp [List.nodup_append, hnd, hnotin])
      | none =>
        rw [hacc] at h
        dsimp only at h
        by_cases hperm : ¬checked = true ∧ ¬hasCreateAccountPerm st accs = true
        · rw [if_pos hperm] at h; simp at h
        · rw [if_neg hperm] at h
          exact ih h (by simp [List.nodup_append, hnd, hnotin])

theorem getOrMakeOutputs_akeyed {st : ExecState} {outs : List TxOutput} {checked : Bool}
    {accs accs2 : List (Nat × Account)}
    (h : getOrMakeOutputs st checked accs outs = .ok accs2)
    (hwf : akeyed st.accounts) (hk : akeyed accs) : akeyed accs2 := by
  induction outs generalizing accs checked with
  | nil =>
    unfold getOrMakeOutputs at h
    simp only [Except.ok.injEq] at h
    rw [← h]
    exact hk
  | cons o rest ih =>
    unfold getOrMakeOutputs at h
    by_cases hdup : (alookup accs o.address).isSome
    · rw [if_pos hdup] at h; simp at h
    · rw [if_neg hdup] at h
      cases hacc : getAccount st o.address with
      | some acc =>
        rw [hacc] at h
        dsimp only at h
        refine ih h ?_
        intro p hp
        rcases List.mem_append.mp hp with hmem | hmem
        · exact hk p hmem
        · have hp1 : p = (o.address, acc) := by simpa using hmem
          rw [hp1]
          exact getAccount_address hwf hacc
      | none =>
        rw [hacc] at h
        dsimp only at h
        by_cases hperm : ¬checked = true ∧ ¬hasCreateAccountPerm st accs = true
        · rw [if_pos hperm] at h; simp at h
        · rw [if_neg hperm] at h
          refine ih h ?_
          intro p hp
          rcases List.mem_append.mp hp with hmem | hmem
          · exact hk p hmem
          · have hp1 : p = (o.address, freshAccount o.address) := by simpa using hmem
            rw [hp1]
            rfl

theorem validateInputs_total {c : Crypto} {accs : List (Nat × Account)} {sb : List Nat}
    {ins : List TxInput} {total : Nat} (h : validateInputs c accs sb ins = .ok total) :
    total = (ins.map (fun i => i.amount)).sum % u64 := by
  induction ins generalizing total with
  | nil =>
    unfold validateInputs at h
    simp only [Except.ok.injEq] at h
    simp [h.symm]
  | cons i rest ih =>
    unfold validateInputs at h
    cases hlk : alookup accs i.address with
    | none => rw [hlk] at h; simp at h
    | some acc =>
      rw [hlk] at h
      dsimp only at h
      cases hv : validateInput c acc sb i with
      | some e => rw [hv] at h; simp at h
      | none =>
        rw [hv] at h
        dsimp only at h
        cases hrec : validateInputs c accs sb rest with
        | error e => rw [hrec] at h; simp at h
        | ok t =>
          rw [hrec] at h
          simp only [Except.ok.injEq] at h
          rw [← h, ih hrec]
          simp only [List.map_cons, List.sum_cons, u64]
          omega

theorem validateInputs_each {c : Crypto} {accs : List (Nat × Account)} {sb : List Nat}
    {ins : List TxInput} {total : Nat} (h : validateInputs c accs sb ins = .ok total) :
    ∀ i ∈ ins, ∃ a, alookup accs i.address = some a ∧ validateInput c a sb i = none := by
  induction ins generalizing total with
  | nil => intro i hi; cases hi
  | cons i rest ih =>
    unfold validateInputs at h
    cases hlk : alookup accs i.address with
    | none => rw [hlk] at h; simp at h
    | some acc =>
      rw [hlk] at h
      dsimp only at h
      cases hv : validateInput c acc sb i with
      | some e => rw [hv] at h; simp at h
      | none =>
        rw [hv] at h
        dsimp only at h
        cases hrec : validateInputs c accs sb rest with
        | error e => rw [hrec] at h; simp at h
        | ok t =>
          intro j hj
          rcases List.mem_cons.mp hj with hj1 | hj2
          · subst hj1
            exact ⟨acc, hlk, hv⟩
          · exact ih hrec j hj2

theorem validateOutputs_total {outs : List TxOutput} {total : Nat}
    (h : validateOutputs outs = .ok total) :
    total = (outs.map (fun o => o.amount)).sum % u64 := by
  induction outs generalizing total with
  | nil =>
    unfold validateOutputs at h
    simp only [Except.ok.injEq] at h
    simp [h.symm]
  | cons o rest ih =>
    unfold validateOutputs at h
    by_cases hb : ¬basicValidOutput o = true
    · rw [if_pos hb] at h; simp at h
    · rw [if_neg hb] at h
      cases hrec : validateOutputs rest with
      | error e => rw [hrec] at h; simp at h
      | ok t =>
        rw [hrec] at h
        simp only [Except.ok.injEq] at h
        rw [← h, ih hrec]
        simp only [List.map_cons, List.sum_cons, u64]
        omega

theorem alookup_adjustByInputs_notmem {m : List (Nat × Account)} {ins : List TxInput} {x : Nat}
    (hx : x ∉ ins.map (fun i => i.address)) :
    alookup (adjustByInputs m ins) x = alookup m x := by
  induction ins generalizing m with
  | nil => rfl
  | cons i rest ih =>
    simp only [List.map_cons, List.mem_cons] at hx
    push_neg at hx
    unfold adjustByInputs
    rw [ih hx.2, alookup_aadjust, if_neg (fun he => hx.1 he.symm)]

theorem alookup_adjustByInputs_mem (m : List (Nat × Account)) {ins : List TxInput}
    (hnd : (ins.map (fun i => i.address)).Nodup) :
    ∀ i ∈ ins, alookup (adjustByInputs m ins) i.address =
      (alookup m i.address).map
        (fun a => { a with balance := a.balance - i.amount, sequence := a.sequence + 1 }) := by
  induction ins generalizing m with
  | nil => intro i hi; cases hi
  | cons j rest ih =>
    simp only [List.map_cons, List.nodup_cons] at hnd
    intro i hi
    rcases List.mem_cons.mp hi with hi1 | hi2
    · subst hi1
      unfold adjustByInputs
      rw [alookup_adjustByInputs_notmem hnd.1, alookup_aadjust, if_pos rfl]
    · unfold adjustByInputs
      rw [ih _ hnd.2 i hi2, alookup_aadjust]
      have hne : j.address ≠ i.address := by
        intro he
        apply hnd.1
        rw [he]
        exact List.mem_map_of_mem (fun i => i.address) hi2
      rw [if_neg hne]

theorem map_fst_adjustByInputs (m : List (Nat × Account)) (ins : List TxInput) :
    (adjustByInputs m ins).map Prod.fst = m.map Prod.fst := by
  induction ins generalizing m with
  | nil => rfl
  | cons i rest ih =>
    unfold adjustByInputs
    rw [ih, map_fst_aadjust]

theorem akeyed_adjustByInputs {m : List (Nat × Account)} (ins : List TxInput)
    (hk : akeyed m) : akeyed (adjustByInputs m ins) := by
  induction ins generalizing m with
  | nil => exact hk
  | cons i rest ih =>
    unfold adjustByInputs
    exact ih (akeyed_aadjust hk (fun b => rfl))

theorem alookup_adjustByOutputs_notmem {m : List (Nat × Account)} {outs : List TxOutput} {x : Nat}
    (hx : x ∉ outs.map (fun o => o.address)) :
    alookup (adjustByOutputs m outs) x = alookup m x := by
  induction outs generalizing m with
  | nil => rfl
  | cons o rest ih =>
    simp only [List.map_cons, List.mem_cons] at hx
    push_neg at hx
    unfold adjustByOutputs
    rw [ih hx.2, alookup_aadjust, if_neg (fun he => hx.1 he.symm)]

theorem alookup_adjustByOutputs_mem (m : List (Nat × Account)) {outs : List TxOutput}
    (hnd : (outs.map (fun o => o.address)).Nodup) :
    ∀ o ∈ outs, alookup (adjustByOutputs m outs) o.address =
      (alookup m o.address).map
        (fun a => { a with balance := (a.balance + o.amount) % u64 }) := by
  induction outs generalizing m with
  | nil => intro o ho; cases ho
  | cons j rest ih =>
    simp only [List.map_cons, List.nodup_cons] at hnd
    intro o ho
    rcases List.mem_cons.mp ho with ho1 | ho2
    · subst ho1
      unfold adjustByOutputs
      rw [alookup_adjustByOutputs_notmem hnd.1, alookup_aadjust, if_pos rfl]
    · unfold adjustByOutputs
      rw [ih _ hnd.2 o ho2, alookup_aadjust]
      have hne : j.address ≠ o.address := by
        intro he
        apply hnd.1
        rw [he]
        exact List.mem_map_of_mem (fun o => o.address) ho2
      rw [if_neg hne]

theorem map_fst_adjustByOutputs (m : List (Nat × Account)) (outs : List TxOutput) :
    (adjustByOutputs m outs).map Prod.fst = m.map Prod.fst := by
  induction outs generalizing m with
  | nil => rfl
  | cons o rest ih =>
    unfold adjustByOutputs
    rw [ih, map_fst_aadjust]

theorem akeyed_adjustByOutputs {m : List (Nat × Account)} (outs : List TxOutput)
    (hk : akeyed m) : akeyed (adjustByOutputs m outs) := by
  induction outs generalizing m with
  | nil => exact hk
  | cons o rest ih =>
    unfold adjustByOutputs
    exact ih (akeyed_aadjust hk (fun b => rfl))

theorem mem_keys_of_alookup_some {α β : Type} [DecidableEq α] {l : List (α × β)} {k : α}
    {v : β} (h : alookup l k = some v) : k ∈ l.map Prod.fst := by
  have := alookup_mem h
  exact List.mem_map_of_mem Prod.fst this

theorem executeSend_ok_inv {c : Crypto} {st : ExecState} {cid : Nat} {tx : SendTx}
    {st1 : ExecState} {fee : Nat}
    (h : executeSend c st cid tx = (st1, fee, none)) :
    ∃ accs ins1 accs2 inT outT,
      getInputs c st tx.inputs [] = .ok (accs, ins1) ∧
      hasSendPerm st accs = true ∧
      getOrMakeOutputs st false accs tx.outputs = .ok accs2 ∧
      validateInputs c accs2 (c.signBytes cid (.send { tx with inputs := ins1 })) ins1 =
        .ok inT ∧
      validateOutputs tx.outputs = .ok outT ∧
      outT ≤ inT ∧ fee = inT - outT ∧
      st1 = fireSendEvents
        (writeAccounts st (adjustByOutputs (adjustByInputs accs2 ins1) tx.outputs)) tx := by
  unfold executeSend at h
  cases hgi : getInputs c st tx.inputs [] with
  | error e => rw [hgi] at h; simp at h
  | ok pr =>
    obtain ⟨accs, ins1⟩ := pr
    rw [hgi] at h
    dsimp only at h
    by_cases hperm : ¬hasSendPerm st accs = true
    · rw [if_pos hperm] at h; simp at h
    · rw [if_neg hperm] at h
      cases hgo : getOrMakeOutputs st false accs tx.outputs with
      | error e => rw [hgo] at h; simp at h
      | ok accs2 =>
        rw [hgo] at h
        dsimp only at h
        cases hvi : validateInputs c accs2
            (c.signBytes cid (.send { tx with inputs := ins1 })) ins1 with
        | error e => rw [hvi] at h; simp at h
        | ok inT =>
          rw [hvi] at h
          dsimp only at h
          cases hvo : validateOutputs tx.outputs with
          | error e => rw [hvo] at h; simp at h
          | ok outT =>
            rw [hvo] at h
            dsimp only at h
            by_cases hcmp : inT < outT
            · rw [if_pos hcmp] at h; simp at h
            · rw [if_neg hcmp] at h
              simp only [Prod.mk.injEq] at h
              exact ⟨accs, ins1, accs2, inT, outT, rfl, not_not.mp hperm, hgo, hvi, rfl,
                by omega, h.2.1.symm, h.1.symm⟩

theorem executeSend_error_state {c : Crypto} {st : ExecState} {cid : Nat} {tx : SendTx}
    {e : TxErr} (h : (executeSend c st cid tx).2.2 = some e) :
    (executeSend c st cid tx).1 = st := by
  unfold executeSend at h ⊢
  cases hgi : getInputs c st tx.inputs [] with
  | error e2 => rfl
  | ok pr =>
    obtain ⟨accs, ins1⟩ := pr
    rw [hgi] at h
    dsimp only at h ⊢
    by_cases hperm : ¬hasSendPerm st accs = true
    · rw [if_pos hperm]
    · rw [if_neg hperm] at h ⊢
      cases hgo : getOrMakeOutputs st false accs tx.outputs with
      | error e2 => rfl
      | ok accs2 =>
        rw [hgo] at h
        dsimp only at h ⊢
        cases hvi : validateInputs c accs2
            (c.signBytes cid (.send { tx with inputs := ins1 })) ins1 with
        | error e2 => rfl
        | ok inT =>
          rw [hvi] at h
          dsimp only at h ⊢
          cases hvo : validateOutputs tx.outputs with
          | error e2 => rfl
          | ok outT =>
            rw [hvo] at h
            dsimp only at h ⊢
            by_cases hcmp : inT < outT
            · rw [if_pos hcmp]
            · rw [if_neg hcmp] at h
              simp at h

theorem exists_matching_core {ins1 ins : List TxInput}
    (h : ins1.map inCore = ins.map inCore) :
    ∀ i ∈ ins, ∃ i1, i1 ∈ ins1 ∧ inCore i1 = inCore i := by
  induction ins generalizing ins1 with
  | nil => intro i hi; cases hi
  | cons j rest ih =>
    cases ins1 with
    | nil => simp at h
    | cons j1 rest1 =>
      simp only [List.map_cons, List.cons.injEq] at h
      intro i hi
      rcases List.mem_cons.mp hi with hi1 | hi2
      · exact ⟨j1, List.mem_cons_self _ _, by rw [h.1, hi1]⟩
      · obtain ⟨i1, hm, he⟩ := ih h.2 i hi2
        exact ⟨i1, List.mem_cons_of_mem _ hm, he⟩

theorem sendSuccess_inputs {c : Crypto} {st : ExecState} {cid : Nat} {tx : SendTx}
    {st1 : ExecState} {fee : Nat} (hk : akeyed st.accounts)
    (h : executeSend c st cid tx = (st1, fee, none)) :
    ∀ i ∈ tx.inputs, ∃ a a2, getAccount st i.address = some a ∧
      getAccount st1 i.address = some a2 ∧ a2.sequence = a.sequence + 1 ∧
      a2.balance + i.amount = a.balance := by
  obtain ⟨accs, ins1, accs2, inT, outT, hgi, hperm, hgo, hvi, hvo, hle, hfee, hst1⟩ :=
    executeSend_ok_inv h
  have hnd_accs : (accs.map Prod.fst).Nodup := getInputs_nodup hgi (by simp)
  have hk_accs : akeyed accs := getInputs_akeyed hgi hk (fun p hp => by cases hp)
  have hnd2 : (accs2.map Prod.fst).Nodup := getOrMakeOutputs_nodup hgo hnd_accs
  have hk2 : akeyed accs2 := getOrMakeOutputs_akeyed hgo hk hk_accs
  have hcores := getInputs_cores hgi
  have haddr : ins1.map (fun i => i.address) = tx.inputs.map (fun i => i.address) := by
    have h2 := congrArg (List.map (fun p : Nat × Nat × Nat × List Nat => p.1)) hcores
    simpa [List.map_map, inCore, Function.comp] using h2
  obtain ⟨dI, hdI, hdIm⟩ := getInputs_prefix hgi
  have hkeys_accs : accs.map Prod.fst = tx.inputs.map (fun i => i.address) := by
    rw [hdI]
    simpa using hdIm
  have hnd_ins : (tx.inputs.map (fun i => i.address)).Nodup := by
    rw [← hkeys_accs]
    exact hnd_accs
  have hnd_ins1 : (ins1.map (fun i => i.address)).Nodup := by
    rw [haddr]
    exact hnd_ins
  intro i hi
  obtain ⟨a0, a1, hacc0, hlk1, hfa, hfs, hfb⟩ := getInputs_accounts hgi i hi
  obtain ⟨dO, hdO, hdOm⟩ := getOrMakeOutputs_prefix hgo
  have hlk2 : alookup accs2 i.address = some a1 := by
    rw [hdO, alookup_append, hlk1]
  -- the corresponding element of the mutated input list
  obtain ⟨i1, hi1_mem, hcore_eq⟩ := exists_matching_core hcores i hi
  have hi1_addr : i1.address = i.address := congrArg (fun p => p.1) hcore_eq
  have hi1_amt : i1.amount = i.amount := congrArg (fun p => p.2.1) hcore_eq
  -- balance bound from validateInputs
  obtain ⟨av, hav, hvn⟩ := validateInputs_each hvi i1 hi1_mem
  have hav2 : av = a1 := by
    rw [hi1_addr, hlk2] at hav
    exact (Option.some.inj hav).symm
  have hbal : i1.amount ≤ av.balance := (validateInput_none hvn).1
  -- adjusted maps
  have hadj1 : alookup (adjustByInputs accs2 ins1) i.address =
      some { a1 with balance := a1.balance - i.amount, sequence := a1.sequence + 1 } := by
    have := alookup_adjustByInputs_mem accs2 hnd_ins1 i1 hi1_mem
    rw [hi1_addr, hi1_amt] at this
    rw [this, hlk2]
    rfl
  have hout_disj : i.address ∉ tx.outputs.map (fun o => o.address) := by
    intro hmem
    obtain ⟨o, ho, hoe⟩ := List.mem_map.mp hmem
    have := (getOrMakeOutputs_accounts hgo o ho).1
    apply this
    rw [hoe, hkeys_accs]
    exact List.mem_map_of_mem (fun i => i.address) hi
  have hadj2 : alookup (adjustByOutputs (adjustByInputs accs2 ins1) tx.outputs) i.address =
      some { a1 with balance := a1.balance - i.amount, sequence := a1.sequence + 1 } := by
    rw [alookup_adjustByOutputs_notmem hout_disj, hadj1]
  -- write-back
  have hk3 : akeyed (adjustByOutputs (adjustByInputs accs2 ins1) tx.outputs) :=
    akeyed_adjustByOutputs _ (akeyed_adjustByInputs _ hk2)
  have hnd3 : ((adjustByOutputs (adjustByInputs accs2 ins1) tx.outputs).map Prod.fst).Nodup := by
    rw [map_fst_adjustByOutputs, map_fst_adjustByInputs]
    exact hnd2
  have hget : getAccount st1 i.address =
      some { a1 with balance := a1.balance - i.amount, sequence := a1.sequence + 1 } := by
    rw [hst1]
    have hev : getAccount (fireSendEvents
        (writeAccounts st (adjustByOutputs (adjustByInputs accs2 ins1) tx.outputs)) tx)
        i.address =
      getAccount (writeAccounts st (adjustByOutputs (adjustByInputs accs2 ins1) tx.outputs))
        i.address := by
      unfold getAccount
      rw [accounts_fireSendEvents]
    rw [hev, getAccount_writeAccounts _ _ hk3 hnd3, hadj2]
  refine ⟨a0, _, hacc0, hget, ?_, ?_⟩
  · simp [hfs]
  · have hbal2 : i.amount ≤ a1.balance := by
      rw [hav2] at hbal
      omega
    simp only
    omega

theorem cores_addrs {ins1 ins : List TxInput} (h : ins1.map inCore = ins.map inCore) :
    ins1.map (fun i => i.address) = ins.map (fun i => i.address) := by
  have h2 := congrArg (List.map (fun p : Nat × Nat × Nat × List Nat => p.1)) h
  simpa [List.map_map, inCore, Function.comp] using h2

theorem cores_amounts {ins1 ins : List TxInput} (h : ins1.map inCore = ins.map inCore) :
    ins1.map (fun i => i.amount) = ins.map (fun i => i.amount) := by
  have h2 := congrArg (List.map (fun p : Nat × Nat × Nat × List Nat => p.2.1)) h
  simpa [List.map_map, inCore, Function.comp] using h2

theorem sendSuccess_outputs {c : Crypto} {st : ExecState} {cid : Nat} {tx : SendTx}
    {st1 : ExecState} {fee : Nat} (hk : akeyed st.accounts)
    (h : executeSend c st cid tx = (st1, fee, none)) :
    ∀ o ∈ tx.outputs, ∃ b2, getAccount st1 o.address = some b2 ∧
      b2.balance = ((match getAccount st o.address with
                     | some b => b.balance
                     | none => 0) + o.amount) % u64 := by
  obtain ⟨accs, ins1, accs2, inT, outT, hgi, hperm, hgo, hvi, hvo, hle, hfee, hst1⟩ :=
    executeSend_ok_inv h
  have hnd_accs : (accs.map Prod.fst).Nodup := getInputs_nodup hgi (by simp)
  have hk_accs : akeyed accs := getInputs_akeyed hgi hk (fun p hp => by cases hp)
  have hnd2 : (accs2.map Prod.fst).Nodup := getOrMakeOutputs_nodup hgo hnd_accs
  have hk2 : akeyed accs2 := getOrMakeOutputs_akeyed hgo hk hk_accs
  obtain ⟨dO, hdO, hdOm⟩ := getOrMakeOutputs_prefix hgo
  have hnd_split : (accs.map Prod.fst ++ dO.map Prod.fst).Nodup := by
    rw [← List.map_append, ← hdO]
    exact hnd2
  have hnd_outs : (tx.outputs.map (fun o => o.address)).Nodup := by
    rw [← hdOm]
    exact (List.nodup_append.mp hnd_split).2.1
  obtain ⟨dI, hdI, hdIm⟩ := getInputs_prefix hgi
  have hkeys_accs : accs.map Prod.fst = tx.inputs.map (fun i => i.address) := by
    rw [hdI]
    simpa using hdIm
  have haddr : ins1.map (fun i => i.address) = tx.inputs.map (fun i => i.address) :=
    cores_addrs (getInputs_cores hgi)
  intro o ho
  have hlko := (getOrMakeOutputs_accounts hgo o ho).2
  have hnotin_ins : o.address ∉ ins1.map (fun i => i.address) := by
    have hdisj := (getOrMakeOutputs_accounts hgo o ho).1
    rw [haddr, ← hkeys_accs]
    exact hdisj
  have hadj1 : alookup (adjustByInputs accs2 ins1) o.address = alookup accs2 o.address :=
    alookup_adjustByInputs_notmem hnotin_ins
  have hadj2 := alookup_adjustByOutputs_mem (adjustByInputs accs2 ins1) hnd_outs o ho
  rw [hadj1, hlko] at hadj2
  have hk3 : akeyed (adjustByOutputs (adjustByInputs accs2 ins1) tx.outputs) :=
    akeyed_adjustByOutputs _ (akeyed_adjustByInputs _ hk2)
  have hnd3 : ((adjustByOutputs (adjustByInputs accs2 ins1) tx.outputs).map Prod.fst).Nodup := by
    rw [map_fst_adjustByOutputs, map_fst_adjustByInputs]
    exact hnd2
  have hget : getAccount st1 o.address =
      some ({ (match getAccount st o.address with
               | some b => b
               | none => freshAccount o.address) with
              balance := ((match getAccount st o.address with
                           | some b => b
                           | none => freshAccount o.address).balance + o.amount) % u64 }) := by
    rw [hst1]
    have hev : getAccount (fireSendEvents
        (writeAccounts st (adjustByOutputs (adjustByInputs accs2 ins1) tx.outputs)) tx)
        o.address =
      getAccount (writeAccounts st (adjustByOutputs (adjustByInputs accs2 ins1) tx.outputs))
        o.address := by
      unfold getAccount
      rw [accounts_fireSendEvents]
    rw [hev, getAccount_writeAccounts _ _ hk3 hnd3, hadj2]
    cases getAccount st o.address <;> rfl
  refine ⟨_, hget, ?_⟩
  cases hb : getAccount st o.address with
  | some b => simp [hb]
  | none => simp [hb, freshAccount]

theorem sendSuccess_sums {c : Crypto} {st : ExecState} {cid : Nat} {tx : SendTx}
    {st1 : ExecState} {fee : Nat} (h : executeSend c st cid tx = (st1, fee, none)) :
    (tx.outputs.map (fun o => o.amount)).sum % u64 ≤
        (tx.inputs.map (fun i => i.amount)).sum % u64 ∧
      fee = (tx.inputs.map (fun i => i.amount)).sum % u64 -
        (tx.outputs.map (fun o => o.amount)).sum % u64 := by
  obtain ⟨accs, ins1, accs2, inT, outT, hgi, hperm, hgo, hvi, hvo, hle, hfee, hst1⟩ :=
    executeSend_ok_inv h
  have hin := validateInputs_total hvi
  have hout := validateOutputs_total hvo
  have hamts : ins1.map (fun i => i.amount) = tx.inputs.map (fun i => i.amount) :=
    cores_amounts (getInputs_cores hgi)
  rw [hamts] at hin
  constructor
  · omega
  · omega

/-- C9: for every SendTx, if `Execute` returns an error then the block
cache is unchanged: every `UpdateAccount` of the SendTx path happens after
all duplicate-address, permission, public-key, signature, sequence,
balance, and total-amount checks have passed, so a failing SendTx is
all-or-nothing with respect to cached state. -/
theorem c9_sendtx_error_no_writes (c : Crypto) (vm : VMSpec) (runCall : Bool) (st : ExecState)
    (cid height : Nat) (tx : SendTx) (e : TxErr)
    (h : (execute c vm runCall st cid height (.send tx)).2.2 = some e) :
    (execute c vm runCall st cid height (.send tx)).1 = st :=
  executeSend_error_state h

/-- Witness for C9: a SendTx from an unknown account fails with
`InvalidAddress` and leaves the (empty) cache untouched. -/
theorem c9_witness :
    (execute cryptoT { registeredNative := fun _ => false, run := fun _ _ _ _ _ => .fail "" }
        true { accounts := [], nameReg := [], events := [] } 7 0
        (.send { inputs := [{ address := 1, amount := 5, sequence := 1, signature := [9],
                              pubKey := none }],
                 outputs := [] })).1 =
      { accounts := [], nameReg := [], events := [] } :=
  c9_sendtx_error_no_writes cryptoT
    { registeredNative := fun _ => false, run := fun _ _ _ _ _ => .fail "" } true
    { accounts := [], nameReg := [], events := [] } 7 0
    { inputs := [{ address := 1, amount := 5, sequence := 1, signature := [9],
                   pubKey := none }],
      outputs := [] }
    .invalidAddress rfl

/-- C8: for every SendTx and prior state, `Execute` in a checker
(runCall = false) and in a committer (runCall = true) produce literally
the same result triple — the SendTx case never consults `runCall` — so a
SendTx succeeds in one path iff it succeeds in the other, the cache
updates agree, and in both paths every input account's sequence advances
by exactly one. -/
theorem c8_send_check_commit_parity (c : Crypto) (vm : VMSpec) (st : ExecState)
    (cid height : Nat) (tx : SendTx) :
    execute c vm true st cid height (.send tx) = execute c vm false st cid height (.send tx) ∧
    (akeyed st.accounts →
      ∀ st1 fee, execute c vm true st cid height (.send tx) = (st1, fee, none) →
        ∀ i ∈ tx.inputs, ∃ a a2, getAccount st i.address = some a ∧
          getAccount st1 i.address = some a2 ∧ a2.sequence = a.sequence + 1) := by
  refine ⟨rfl, fun hk st1 fee h i hi => ?_⟩
  obtain ⟨a, a2, h1, h2, h3, h4⟩ := sendSuccess_inputs hk h i hi
  exact ⟨a, a2, h1, h2, h3⟩

/-- Witness for C8: a concrete successful SendTx advances the input
account from sequence 0 to 1 (commit path shown; the check path is the
same state by the first conjunct). -/
theorem c8_witness :
    ∃ a a2,
      getAccount
          { accounts := [(1, { address := 1, pubKey := some 1, sequence := 0, balance := 1000,
                               code := [], permissions := allPermsT }),
                         (2, { address := 2, pubKey := none, sequence := 0, balance := 0,
                               code := [], permissions := zeroPermsT })],
            nameReg := [], events := [] } 1 = some a ∧
        getAccount
            (execute cryptoT
              { registeredNative := fun _ => false, run := fun _ _ _ _ _ => .fail "" } true
              { accounts := [(1, { address := 1, pubKey := some 1, sequence := 0,
                                   balance := 1000, code := [], permissions := allPermsT }),
                             (2, { address := 2, pubKey := none, sequence := 0, balance := 0,
                                   code := [], permissions := zeroPermsT })],
                nameReg := [], events := [] } 7 0
              (.send { inputs := [{ address := 1, amount := 600, sequence := 1,
                                    signature := [9], pubKey := none }],
                       outputs := [{ address := 2, amount := 600 }] })).1 1 = some a2 ∧
          a2.sequence = a.sequence + 1 :=
  (c8_send_check_commit_parity cryptoT
      { registeredNative := fun _ => false, run := fun _ _ _ _ _ => .fail "" }
      { accounts := [(1, { address := 1, pubKey := some 1, sequence := 0, balance := 1000,
                           code := [], permissions := allPermsT }),
                     (2, { address := 2, pubKey := none, sequence := 0, balance := 0,
                           code := [], permissions := zeroPermsT })],
        nameReg := [], events := [] } 7 0
      { inputs := [{ address := 1, amount := 600, sequence := 1, signature := [9],
                     pubKey := none }],
        outputs := [{ address := 2, amount := 600 }] }).2
    (by decide) _ _ rfl
    { address := 1, amount := 600, sequence := 1, signature := [9], pubKey := none }
    (by simp)

/-- C2 counterexample: the source accumulates the output total in
`uint64`, which wraps.  A SendTx with one input of 10 and two outputs of
2^63 each has a true output sum of 2^64 > 10, yet the wrapped total is 0,
the `outTotal > inTotal` gate passes, and the SendTx succeeds — the
claimed error guarantee is false of the program. -/
theorem c2_counterexample :
    (execute cryptoT { registeredNative := fun _ => false, run := fun _ _ _ _ _ => .fail "" } true { accounts := [(1, { address := 1, pubKey := some 1, sequence := 0, balance := 1000, code := [], permissions := allPermsT })], nameReg := [], events := [] } 7 0 (.send { inputs := [{ address := 1, amount := 10, sequence := 1, signature := [9], pubKey := none }], outputs := [{ address := 2, amount := 9223372036854775808 }, { address := 3, amount := 9223372036854775808 }] })).2.2 = none ∧
      (([{ address := 2, amount := 9223372036854775808 }, { address := 3, amount := 9223372036854775808 }] : List TxOutput).map (fun o => o.amount)).sum >
        (([{ address := 1, amount := 10, sequence := 1, signature := [9], pubKey := none }] : List TxInput).map (fun i => i.amount)).sum :=
  ⟨rfl, by decide⟩

/-- C2 as amended: the totals the source compares and books are the
`uint64`-wrapped sums.  For every SendTx, `Execute` errors whenever the
wrapped outputs sum exceeds the wrapped inputs sum; on success every
input account is debited by its amount with its sequence advanced by one,
every output account (created fresh with balance 0 when absent) is
credited by its amount modulo 2^64, and the difference of the wrapped
sums is booked as the fee. -/
theorem c2_sendtx_spec (c : Crypto) (vm : VMSpec) (runCall : Bool) (st : ExecState)
    (cid height : Nat) (tx : SendTx) :
    ((tx.inputs.map (fun i => i.amount)).sum % u64 <
        (tx.outputs.map (fun o => o.amount)).sum % u64 →
      (execute c vm runCall st cid height (.send tx)).2.2 ≠ none) ∧
    (akeyed st.accounts →
      ∀ st1 fee, execute c vm runCall st cid height (.send tx) = (st1, fee, none) →
        fee = (tx.inputs.map (fun i => i.amount)).sum % u64 -
            (tx.outputs.map (fun o => o.amount)).sum % u64 ∧
        (∀ i ∈ tx.inputs, ∃ a a2, getAccount st i.address = some a ∧
          getAccount st1 i.address = some a2 ∧ a2.sequence = a.sequence + 1 ∧
          a2.balance + i.amount = a.balance) ∧
        (∀ o ∈ tx.outputs, ∃ b2, getAccount st1 o.address = some b2 ∧
          b2.balance = ((match getAccount st o.address with
                         | some b => b.balance
                         | none => 0) + o.amount) % u64)) := by
  constructor
  · intro hgt hnone
    have hnone2 : (executeSend c st cid tx).2.2 = none := hnone
    have h : executeSend c st cid tx =
        ((executeSend c st cid tx).1, (executeSend c st cid tx).2.1, none) := by
      rw [← hnone2]
    have hsum := (sendSuccess_sums h).1
    omega
  · intro hk st1 fee h
    exact ⟨(sendSuccess_sums h).2, sendSuccess_inputs hk h, sendSuccess_outputs hk h⟩

/-- Witness for C2: the concrete S1 scenario — A sends 600 to B; A ends
debited with sequence 1 and B credited. -/
theorem c2_witness :
    (∀ o ∈ ({ inputs := [{ address := 1, amount := 600, sequence := 1, signature := [9],
                           pubKey := none }],
              outputs := [{ address := 2, amount := 600 }] } : SendTx).outputs,
      ∃ b2, getAccount
          (execute cryptoT
            { registeredNative := fun _ => false, run := fun _ _ _ _ _ => .fail "" } false
            { accounts := [(1, { address := 1, pubKey := some 1, sequence := 0,
                                 balance := 1000, code := [], permissions := allPermsT }),
                           (2, { address := 2, pubKey := none, sequence := 0, balance := 0,
                                 code := [], permissions := zeroPermsT })],
              nameReg := [], events := [] } 7 0
            (.send { inputs := [{ address := 1, amount := 600, sequence := 1,
                                  signature := [9], pubKey := none }],
                     outputs := [{ address := 2, amount := 600 }] })).1 o.address = some b2 ∧
        b2.balance = ((match getAccount
            { accounts := [(1, { address := 1, pubKey := some 1, sequence := 0,
                                 balance := 1000, code := [], permissions := allPermsT }),
                           (2, { address := 2, pubKey := none, sequence := 0, balance := 0,
                                 code := [], permissions := zeroPermsT })],
              nameReg := [], events := [] } o.address with
          | some b => b.balance
          | none => 0) + o.amount) % u64) :=
  ((c2_sendtx_spec cryptoT
      { registeredNative := fun _ => false, run := fun _ _ _ _ _ => .fail "" } false
      { accounts := [(1, { address := 1, pubKey := some 1, sequence := 0, balance := 1000,
                           code := [], permissions := allPermsT }),
                     (2, { address := 2, pubKey := none, sequence := 0, balance := 0,
                           code := [], permissions := zeroPermsT })],
        nameReg := [], events := [] } 7 0
      { inputs := [{ address := 1, amount := 600, sequence := 1, signature := [9],
                     pubKey := none }],
        outputs := [{ address := 2, amount := 600 }] }).2
    (by decide) _ _ rfl).2.2

theorem callCheck_ok {c : Crypto} {vm : VMSpec} {st : ExecState} {cid : Nat} {tx : CallTx}
    {inAcc1 : Account} {in1 : TxInput} {outAcc : Option Account}
    (h : callCheck c vm st cid tx = .ok (inAcc1, in1, outAcc)) :
    ∃ inAcc, getAccount st tx.input.address = some inAcc ∧
      checkInputPubKey c inAcc tx.input = .ok (inAcc1, in1) ∧
      validateInput c inAcc1 (c.signBytes cid (.call { tx with input := in1 })) in1 = none ∧
      tx.fee ≤ in1.amount ∧
      (match tx.address with
       | none => outAcc = none
       | some ad => vm.registeredNative ad = false ∧ outAcc = getAccount st ad) := by
  unfold callCheck at h
  cases hacc : getAccount st tx.input.address with
  | none => rw [hacc] at h; simp at h
  | some inAcc =>
    rw [hacc] at h
    dsimp only at h
    by_cases h1 : tx.address = none ∧ ¬hasPermission st inAcc permCreateContract = true
    · rw [if_pos h1] at h; simp at h
    · rw [if_neg h1] at h
      by_cases h2 : tx.address ≠ none ∧ ¬hasPermission st inAcc permCall = true
      · rw [if_pos h2] at h; simp at h
      · rw [if_neg h2] at h
        cases hcp : checkInputPubKey c inAcc tx.input with
        | error e => rw [hcp] at h; simp at h
        | ok pr =>
          obtain ⟨a1, j1⟩ := pr
          rw [hcp] at h
          dsimp only at h
          cases hv : validateInput c a1 (c.signBytes cid (.call { tx with input := j1 })) j1 with
          | some e => rw [hv] at h; simp at h
          | none =>
            rw [hv] at h
            dsimp only at h
            by_cases h3 : j1.amount < tx.fee
            · rw [if_pos h3] at h; simp at h
            · rw [if_neg h3] at h
              cases had : tx.address with
              | none =>
                rw [had] at h hv
                dsimp only at h
                simp only [Except.ok.injEq, Prod.mk.injEq] at h
                obtain ⟨ha, hi, ho⟩ := h
                subst ha
                subst hi
                subst ho
                exact ⟨inAcc, rfl, hcp, hv, by omega, rfl⟩
              | some ad =>
                rw [had] at h hv
                dsimp only at h
                by_cases h4 : vm.registeredNative ad = true
                · rw [if_pos h4] at h; simp at h
                · rw [if_neg h4] at h
                  simp only [Except.ok.injEq, Prod.mk.injEq] at h
                  obtain ⟨ha, hi, ho⟩ := h
                  subst ha
                  subst hi
                  subst ho
                  exact ⟨inAcc, rfl, hcp, hv, by omega,
                    ⟨by simpa using h4, rfl⟩⟩

theorem accounts_fireCallEvents (st : ExecState) (tx : CallTx) (s : String) :
    (fireCallEvents st tx s).accounts = st.accounts := by
  unfold fireCallEvents
  cases tx.address <;> rfl

theorem nameReg_fireCallEvents (st : ExecState) (tx : CallTx) (s : String) :
    (fireCallEvents st tx s).nameReg = st.nameReg := by
  unfold fireCallEvents
  cases tx.address <;> rfl

theorem alookup_txUpdate (txc : List (Nat × Account)) (acc : Account) (x : Nat) :
    alookup (txUpdate txc acc) x = if acc.address = x then some acc else alookup txc x := by
  unfold txUpdate
  exact alookup_aupsert txc acc.address acc x

theorem alookup_foldl_txUpdate_notmem {writes : List Account} {txc : List (Nat × Account)}
    {x : Nat} (h : ∀ w ∈ writes, w.address ≠ x) :
    alookup (writes.foldl txUpdate txc) x = alookup txc x := by
  induction writes generalizing txc with
  | nil => rfl
  | cons w rest ih =>
    have hw : w.address ≠ x := h w (List.mem_cons_self w rest)
    have hrest : ∀ w2 ∈ rest, w2.address ≠ x := fun w2 hw2 => h w2 (List.mem_cons_of_mem w hw2)
    simp only [List.foldl_cons]
    rw [ih hrest, alookup_txUpdate, if_neg hw]

theorem akeyed_foldl_txUpdate (writes : List Account) (txc : List (Nat × Account))
    (hk : akeyed txc) : akeyed (writes.foldl txUpdate txc) := by
  induction writes generalizing txc with
  | nil => exact hk
  | cons w rest ih =>
    simp only [List.foldl_cons]
    exact ih _ (akeyed_aupsert hk rfl)

theorem nodup_foldl_txUpdate (writes : List Account) (txc : List (Nat × Account))
    (hnd : (txc.map Prod.fst).Nodup) : ((writes.foldl txUpdate txc).map Prod.fst).Nodup := by
  induction writes generalizing txc with
  | nil => exact hnd
  | cons w rest ih =>
    simp only [List.foldl_cons]
    exact ih _ (nodup_fst_aupsert txc w.address w hnd)

/-- Shared facts for the commit path with a failing VM: the call errors
are swallowed, and the cached accounts show exactly the fee debit and
sequence bump of the validated input account. -/
theorem callVMFailFacts {c : Crypto} {vm : VMSpec} {st : ExecState} {cid : Nat} {tx : CallTx}
    {inAcc1 : Account} {in1 : TxInput} {outAcc : Option Account} {msg : String}
    (h_chk : callCheck c vm st cid tx = .ok (inAcc1, in1, outAcc))
    (h_vm : ∀ a b cd d v, vm.run a b cd d v = .fail msg) :
    (executeCall c vm true st cid tx).2 = none ∧
      (executeCall c vm true st cid tx).1.accounts =
        (updateAccount st { inAcc1 with sequence := inAcc1.sequence + 1,
                                        balance := inAcc1.balance - tx.fee }).accounts ∧
      (executeCall c vm true st cid tx).1.nameReg = st.nameReg := by
  unfold executeCall
  rw [h_chk]
  dsimp only
  cases had : tx.address with
  | none =>
    dsimp only
    unfold runVMPhase
    rw [h_vm]
    dsimp only
    exact ⟨rfl, by rw [accounts_fireCallEvents], by rw [nameReg_fireCallEvents]; rfl⟩
  | some ad =>
    dsimp only
    cases outAcc with
    | none =>
      dsimp only
      exact ⟨rfl, by rw [accounts_fireCallEvents], by rw [nameReg_fireCallEvents]; rfl⟩
    | some oa =>
      dsimp only
      by_cases hcode : oa.code = []
      · rw [if_pos hcode]
        exact ⟨rfl, by rw [accounts_fireCallEvents], by rw [nameReg_fireCallEvents]; rfl⟩
      · rw [if_neg hcode]
        unfold runVMPhase
        rw [h_vm]
        dsimp only
        exact ⟨rfl, by rw [accounts_fireCallEvents], by rw [nameReg_fireCallEvents]; rfl⟩

/-- C5: for every CallTx executed in the commit path whose VM invocation
fails, `Execute` returns nil (the VM error does not escape), the caller's
fee debit and sequence increment remain, no value is transferred, and no
VM-speculative write reaches the block cache — the transaction cache is
discarded and the name registry (and everything beyond the single fee
debit) is unchanged. -/
theorem c5_calltx_vm_failure (c : Crypto) (vm : VMSpec) (st : ExecState) (cid height : Nat)
    (tx : CallTx) (inAcc1 : Account) (in1 : TxInput) (outAcc : Option Account) (msg : String)
    (h_chk : callCheck c vm st cid tx = .ok (inAcc1, in1, outAcc))
    (h_vm : ∀ a b cd d v, vm.run a b cd d v = .fail msg) :
    (execute c vm true st cid height (.call tx)).2.2 = none ∧
      (execute c vm true st cid height (.call tx)).1.accounts =
        (updateAccount st { inAcc1 with sequence := inAcc1.sequence + 1,
                                        balance := inAcc1.balance - tx.fee }).accounts ∧
      (execute c vm true st cid height (.call tx)).1.nameReg = st.nameReg :=
  callVMFailFacts h_chk h_vm

/-- Witness for C5: a concrete creating CallTx under an always-failing VM
keeps only the fee debit and sequence bump. -/
theorem c5_witness :
    (execute cryptoT { registeredNative := fun _ => false, run := fun _ _ _ _ _ => .fail "x" }
        true
        { accounts := [(1, { address := 1, pubKey := some 1, sequence := 0, balance := 10000,
                             code := [], permissions := allPermsT })],
          nameReg := [], events := [] } 7 0
        (.call { input := { address := 1, amount := 2000, sequence := 1, signature := [9],
                            pubKey := none },
                 address := none, gasLimit := 0, fee := 1000, data := [7] })).2.2 = none ∧
      (execute cryptoT
          { registeredNative := fun _ => false, run := fun _ _ _ _ _ => .fail "x" } true
          { accounts := [(1, { address := 1, pubKey := some 1, sequence := 0, balance := 10000,
                               code := [], permissions := allPermsT })],
            nameReg := [], events := [] } 7 0
          (.call { input := { address := 1, amount := 2000, sequence := 1, signature := [9],
                              pubKey := none },
                   address := none, gasLimit := 0, fee := 1000, data := [7] })).1.accounts =
        (updateAccount
            { accounts := [(1, { address := 1, pubKey := some 1, sequence := 0,
                                 balance := 10000, code := [], permissions := allPermsT })],
              nameReg := [], events := [] }
            { address := 1, pubKey := some 1, sequence := 0 + 1, balance := 10000 - 1000,
              code := [], permissions := allPermsT }).accounts ∧
      (execute cryptoT
          { registeredNative := fun _ => false, run := fun _ _ _ _ _ => .fail "x" } true
          { accounts := [(1, { address := 1, pubKey := some 1, sequence := 0, balance := 10000,
                               code := [], permissions := allPermsT })],
            nameReg := [], events := [] } 7 0
          (.call { input := { address := 1, amount := 2000, sequence := 1, signature := [9],
                              pubKey := none },
                   address := none, gasLimit := 0, fee := 1000, data := [7] })).1.nameReg = [] :=
  c5_calltx_vm_failure cryptoT
    { registeredNative := fun _ => false, run := fun _ _ _ _ _ => .fail "x" }
    { accounts := [(1, { address := 1, pubKey := some 1, sequence := 0, balance := 10000,
                         code := [], permissions := allPermsT })],
      nameReg := [], events := [] } 7 0
    { input := { address := 1, amount := 2000, sequence := 1, signature := [9],
                 pubKey := none },
      address := none, gasLimit := 0, fee := 1000, data := [7] }
    { address := 1, pubKey := some 1, sequence := 0, balance := 10000, code := [],
      permissions := allPermsT }
    { address := 1, amount := 2000, sequence := 1, signature := [9], pubKey := none }
    none "x" rfl (fun _ _ _ _ _ => rfl)

/-- Commit path with a successful VM call: the caller account written to
the transaction cache is promoted to the block cache with the transferred
value debited, provided the VM's speculative writes do not rewrite the
caller and the callee is distinct from the caller. -/
theorem runVMPhase_ok_account (vm : VMSpec) (st1 : ExecState) (tx : CallTx)
    (caller callee : Account) (code : List Nat) (value : Nat) (create : Bool)
    (ret : List Nat) (writes : List Account)
    (h_vm : ∀ a b cd d v, vm.run a b cd d v = .ok ret writes)
    (h_wr : ∀ w ∈ writes, w.address ≠ caller.address)
    (h_ne : callee.address ≠ caller.address) :
    (runVMPhase vm st1 tx caller callee code value create).2 = none ∧
      getAccount (runVMPhase vm st1 tx caller callee code value create).1 caller.address =
        some { caller with balance := caller.balance - value } := by
  unfold runVMPhase
  rw [h_vm]
  dsimp only
  have h0 : alookup (txUpdate (txUpdate [] caller) callee) caller.address = some caller := by
    rw [alookup_txUpdate, if_neg h_ne, alookup_txUpdate, if_pos rfl]
  have h1 : alookup (txTransfer (txUpdate (txUpdate [] caller) callee) caller.address
      callee.address value) caller.address =
      some { caller with balance := caller.balance - value } := by
    unfold txTransfer txAdjust
    rw [alookup_aadjust, if_neg h_ne, alookup_aadjust, if_pos rfl, h0]
    rfl
  have h2 : alookup (writes.foldl txUpdate (txTransfer (txUpdate (txUpdate [] caller) callee)
      caller.address callee.address value)) caller.address =
      some { caller with balance := caller.balance - value } := by
    rw [alookup_foldl_txUpdate_notmem h_wr, h1]
  have hk0 : akeyed (txUpdate (txUpdate [] caller) callee) :=
    akeyed_aupsert (akeyed_aupsert (fun p hp => by cases hp) rfl) rfl
  have hnd0 : ((txUpdate (txUpdate [] caller) callee).map Prod.fst).Nodup :=
    nodup_fst_aupsert _ _ _ (nodup_fst_aupsert _ _ _ (by simp))
  have hk1 : akeyed (txTransfer (txUpdate (txUpdate [] caller) callee) caller.address
      callee.address value) := by
    unfold txTransfer txAdjust
    exact akeyed_aadjust (akeyed_aadjust hk0 (fun b => rfl)) (fun b => rfl)
  have hnd1 : ((txTransfer (txUpdate (txUpdate [] caller) callee) caller.address
      callee.address value).map Prod.fst).Nodup := by
    unfold txTransfer txAdjust
    rw [map_fst_aadjust, map_fst_aadjust]
    exact hnd0
  have hk2 : akeyed (writes.foldl txUpdate (txTransfer (txUpdate (txUpdate [] caller) callee)
      caller.address callee.address value)) := akeyed_foldl_txUpdate _ _ hk1
  have hnd2 : ((writes.foldl txUpdate (txTransfer (txUpdate (txUpdate [] caller) callee)
      caller.address callee.address value)).map Prod.fst).Nodup :=
    nodup_foldl_txUpdate _ _ hnd1
  have hev : ∀ (s2 : ExecState) (s : String),
      getAccount (fireCallEvents s2 tx s) caller.address = getAccount s2 caller.address := by
    intro s2 s
    unfold getAccount
    rw [accounts_fireCallEvents]
  cases create with
  | true =>
    dsimp only
    refine ⟨rfl, ?_⟩
    rw [hev]
    unfold txSync
    have hk3 : akeyed (txSetCode (writes.foldl txUpdate
        (txTransfer (txUpdate (txUpdate [] caller) callee) caller.address callee.address
          value)) callee.address ret) := by
      unfold txSetCode txAdjust
      exact akeyed_aadjust hk2 (fun b => rfl)
    have hnd3 : ((txSetCode (writes.foldl txUpdate
        (txTransfer (txUpdate (txUpdate [] caller) callee) caller.address callee.address
          value)) callee.address ret).map Prod.fst).Nodup := by
      unfold txSetCode txAdjust
      rw [map_fst_aadjust]
      exact hnd2
    rw [getAccount_writeAccounts _ _ hk3 hnd3]
    have h3 : alookup (txSetCode (writes.foldl txUpdate
        (txTransfer (txUpdate (txUpdate [] caller) callee) caller.address callee.address
          value)) callee.address ret) caller.address =
        some { caller with balance := caller.balance - value } := by
      unfold txSetCode txAdjust
      rw [alookup_aadjust, if_neg h_ne, h2]
    rw [h3]
  | false =>
    dsimp only
    refine ⟨rfl, ?_⟩
    rw [hev]
    unfold txSync
    rw [getAccount_writeAccounts _ _ hk2 hnd2, h2]

/-- Commit path, contract creation, successful VM call: the caller ends
with its sequence advanced twice (fee-debit bump plus `DeriveNewAccount`
bump, promoted by the tx-cache sync) and its full input amount debited
(fee plus transferred value), provided the VM's speculative writes do not
rewrite the caller and the derived contract address is distinct from the
caller's. -/
theorem callCreateOk_account {c : Crypto} {vm : VMSpec} {st : ExecState} {cid : Nat}
    {tx : CallTx} {inAcc1 : Account} {in1 : TxInput} {ret : List Nat} {writes : List Account}
    (hwf : akeyed st.accounts)
    (h_create : tx.address = none)
    (h_chk : callCheck c vm st cid tx = .ok (inAcc1, in1, none))
    (h_vm : ∀ a b cd d v, vm.run a b cd d v = .ok ret writes)
    (h_wr : ∀ w ∈ writes, w.address ≠ tx.input.address)
    (h_ne : contractAddress tx.input.address (inAcc1.sequence + 1) ≠ tx.input.address) :
    (executeCall c vm true st cid tx).2 = none ∧
      ∃ a0 a2, getAccount st tx.input.address = some a0 ∧
        getAccount (executeCall c vm true st cid tx).1 tx.input.address = some a2 ∧
        a2.sequence = a0.sequence + 2 ∧ a2.balance + tx.input.amount = a0.balance := by
  obtain ⟨inAcc, hacc, hcp, hv, hfee, _⟩ := callCheck_ok h_chk
  have hfld := checkInputPubKey_fields hcp
  have hA : inAcc1.address = tx.input.address := by
    rw [hfld.1]
    exact getAccount_address hwf hacc
  have hvn := validateInput_none hv
  set inAcc2 : Account :=
    { inAcc1 with sequence := inAcc1.sequence + 1, balance := inAcc1.balance - tx.fee }
    with hinAcc2
  set gp : AccountPermissions := globalAccountPermissions st with hgp
  have hcallerad : (deriveNewAccount inAcc2 gp).1.address = tx.input.address := by
    unfold deriveNewAccount
    dsimp only
    exact hA
  have hrun := runVMPhase_ok_account vm (updateAccount st inAcc2) tx
    (deriveNewAccount inAcc2 gp).1 (deriveNewAccount inAcc2 gp).2
    tx.data (in1.amount - tx.fee) true ret writes h_vm
    (by
      intro w hw
      rw [hcallerad]
      exact h_wr w hw)
    (by
      rw [hcallerad]
      unfold deriveNewAccount
      dsimp only
      rw [hA]
      exact h_ne)
  rw [hcallerad] at hrun
  have hexec : executeCall c vm true st cid tx =
      runVMPhase vm (updateAccount st inAcc2) tx
        (deriveNewAccount inAcc2 gp).1 (deriveNewAccount inAcc2 gp).2
        tx.data (in1.amount - tx.fee) true := by
    unfold executeCall
    rw [h_chk]
    dsimp only
    rw [h_create]
  rw [hexec]
  refine ⟨hrun.1, inAcc, _, hacc, hrun.2, ?_, ?_⟩
  · unfold deriveNewAccount
    dsimp only
    have hseq : inAcc1.sequence = inAcc.sequence := hfld.2.1
    omega
  · have hb : in1.amount ≤ inAcc1.balance := hvn.1
    have hbal : inAcc1.balance = inAcc.balance := hfld.2.2.1
    have hamt : in1.amount = tx.input.amount := hfld.2.2.2.2.1
    unfold deriveNewAccount
    dsimp only
    omega

/-- Commit path, call to an existing callee holding code, successful VM
call: the caller advances its sequence once and is debited fee plus value,
provided the callee and the VM's speculative writes are distinct from the
caller. -/
theorem callExistingOk_account {c : Crypto} {vm : VMSpec} {st : ExecState} {cid : Nat}
    {tx : CallTx} {inAcc1 : Account} {in1 : TxInput} {oa : Account} {ad : Nat}
    {ret : List Nat} {writes : List Account}
    (hwf : akeyed st.accounts)
    (had : tx.address = some ad)
    (h_ne2 : ad ≠ tx.input.address)
    (h_chk : callCheck c vm st cid tx = .ok (inAcc1, in1, some oa))
    (h_code : ¬oa.code = [])
    (h_vm : ∀ a b cd d v, vm.run a b cd d v = .ok ret writes)
    (h_wr : ∀ w ∈ writes, w.address ≠ tx.input.address) :
    (executeCall c vm true st cid tx).2 = none ∧
      ∃ a0 a2, getAccount st tx.input.address = some a0 ∧
        getAccount (executeCall c vm true st cid tx).1 tx.input.address = some a2 ∧
        a2.sequence = a0.sequence + 1 ∧ a2.balance + tx.input.amount = a0.balance := by
  obtain ⟨inAcc, hacc, hcp, hv, hfee, hrest⟩ := callCheck_ok h_chk
  rw [had] at hrest
  dsimp only at hrest
  have hoacc : getAccount st ad = some oa := hrest.2.symm
  have hoaddr : oa.address = ad := getAccount_address hwf hoacc
  have hfld := checkInputPubKey_fields hcp
  have hA : inAcc1.address = tx.input.address := by
    rw [hfld.1]
    exact getAccount_address hwf hacc
  have hvn := validateInput_none hv
  have hrun := runVMPhase_ok_account vm (updateAccount st { inAcc1 with sequence := inAcc1.sequence + 1, balance := inAcc1.balance - tx.fee }) tx { inAcc1 with sequence := inAcc1.sequence + 1, balance := inAcc1.balance - tx.fee } oa oa.code (in1.amount - tx.fee) false ret writes h_vm
    (by
      intro w hw
      show w.address ≠ inAcc1.address
      rw [hA]
      exact h_wr w hw)
    (by
      show oa.address ≠ inAcc1.address
      rw [hoaddr, hA]
      exact h_ne2)
  have hexec : executeCall c vm true st cid tx = runVMPhase vm (updateAccount st { inAcc1 with sequence := inAcc1.sequence + 1, balance := inAcc1.balance - tx.fee }) tx { inAcc1 with sequence := inAcc1.sequence + 1, balance := inAcc1.balance - tx.fee } oa oa.code (in1.amount - tx.fee) false := by
    unfold executeCall
    rw [h_chk]
    dsimp only
    rw [had]
    dsimp only
    rw [if_neg h_code]
  have hrun2 := hrun.2
  dsimp only at hrun2
  rw [hexec]
  refine ⟨hrun.1, inAcc, { inAcc1 with sequence := inAcc1.sequence + 1, balance := inAcc1.balance - tx.fee - (in1.amount - tx.fee) }, hacc, ?_, ?_, ?_⟩
  · rw [← hA]
    exact hrun2
  · dsimp only
    have hseq : inAcc1.sequence = inAcc.sequence := hfld.2.1
    omega
  · have hb : in1.amount ≤ inAcc1.balance := hvn.1
    have hbal : inAcc1.balance = inAcc.balance := hfld.2.2.1
    have hamt : in1.amount = tx.input.amount := hfld.2.2.2.2.1
    dsimp only
    omega

/-- Check path: the VM is skipped, the caller is debited the full amount
(fee plus value) and its sequence advances once, or twice for a creating
call (mirroring `DeriveNewAccount`). -/
theorem callCheckPath_account {c : Crypto} {vm : VMSpec} {st : ExecState} {cid : Nat}
    {tx : CallTx} {st1 : ExecState}
    (hwf : akeyed st.accounts)
    (h : executeCall c vm false st cid tx = (st1, none)) :
    ∃ a0 a2, getAccount st tx.input.address = some a0 ∧
      getAccount st1 tx.input.address = some a2 ∧
      a2.sequence = a0.sequence + (if tx.address = none then 2 else 1) ∧
      a2.balance + tx.input.amount = a0.balance := by
  cases hchk : callCheck c vm st cid tx with
  | error e =>
    unfold executeCall at h
    rw [hchk] at h
    simp at h
  | ok pr =>
    obtain ⟨inAcc1, pr2⟩ := pr
    obtain ⟨in1, outAcc⟩ := pr2
    obtain ⟨inAcc, hacc, hcp, hv, hfee, _⟩ := callCheck_ok hchk
    have hfld := checkInputPubKey_fields hcp
    have hA : inAcc1.address = tx.input.address := by
      rw [hfld.1]
      exact getAccount_address hwf hacc
    have hvn := validateInput_none hv
    have hb : in1.amount ≤ inAcc1.balance := hvn.1
    have hbal : inAcc1.balance = inAcc.balance := hfld.2.2.1
    have hamt : in1.amount = tx.input.amount := hfld.2.2.2.2.1
    have hseq : inAcc1.sequence = inAcc.sequence := hfld.2.1
    by_cases hadr : tx.address = none
    · have hexec : executeCall c vm false st cid tx = (updateAccount (updateAccount st { inAcc1 with sequence := inAcc1.sequence + 1, balance := inAcc1.balance - tx.fee }) { inAcc1 with sequence := inAcc1.sequence + 1 + 1, balance := inAcc1.balance - tx.fee - (in1.amount - tx.fee) }, none) := by
        unfold executeCall
        rw [hchk]
        dsimp only
        rw [if_pos hadr]
      rw [hexec] at h
      simp only [Prod.mk.injEq] at h
      refine ⟨inAcc, { inAcc1 with sequence := inAcc1.sequence + 1 + 1, balance := inAcc1.balance - tx.fee - (in1.amount - tx.fee) }, hacc, ?_, ?_, ?_⟩
      · rw [← h.1, getAccount_updateAccount]
        dsimp only
        rw [if_pos hA]
      · rw [if_pos hadr]
        dsimp only
        omega
      · dsimp only
        omega
    · have hexec : executeCall c vm false st cid tx = (updateAccount (updateAccount st { inAcc1 with sequence := inAcc1.sequence + 1, balance := inAcc1.balance - tx.fee }) { inAcc1 with sequence := inAcc1.sequence + 1, balance := inAcc1.balance - tx.fee - (in1.amount - tx.fee) }, none) := by
        unfold executeCall
        rw [hchk]
        dsimp only
        rw [if_neg hadr]
      rw [hexec] at h
      simp only [Prod.mk.injEq] at h
      refine ⟨inAcc, { inAcc1 with sequence := inAcc1.sequence + 1, balance := inAcc1.balance - tx.fee - (in1.amount - tx.fee) }, hacc, ?_, ?_, ?_⟩
      · rw [← h.1, getAccount_updateAccount]
        dsimp only
        rw [if_pos hA]
      · rw [if_neg hadr]
        dsimp only
        omega
      · dsimp only
        omega

/-- C6 counterexample: a concrete contract-creating CallTx succeeds in the
commit path, yet the caller's sequence ends at 2, not at its previous
value plus one: the fee-debit path bumps it once (IncSequence) and
DeriveNewAccount bumps it a second time, and the transaction-cache sync
promotes the doubly-bumped copy to the block cache. -/
theorem c6_counterexample :
    (execute cryptoT { registeredNative := fun _ => false, run := fun _ _ _ _ _ => .ok [] [] } true { accounts := [(2, { address := 2, pubKey := some 2, sequence := 0, balance := 10000, code := [], permissions := allPermsT })], nameReg := [], events := [] } 7 0 (.call { input := { address := 2, amount := 2000, sequence := 1, signature := [9], pubKey := none }, address := none, gasLimit := 0, fee := 1000, data := [7] })).2.2 = none ∧
      (getAccount (execute cryptoT { registeredNative := fun _ => false, run := fun _ _ _ _ _ => .ok [] [] } true { accounts := [(2, { address := 2, pubKey := some 2, sequence := 0, balance := 10000, code := [], permissions := allPermsT })], nameReg := [], events := [] } 7 0 (.call { input := { address := 2, amount := 2000, sequence := 1, signature := [9], pubKey := none }, address := none, gasLimit := 0, fee := 1000, data := [7] })).1 2).map Account.sequence = some 2 ∧
      (some 2 : Option Nat) ≠ some (0 + 1) :=
  ⟨rfl, rfl, by decide⟩

/-- C6 as amended: for every contract-creating CallTx (tx.address absent)
that succeeds in the commit path (runCall=true) with a VM that performs no
speculative write to the caller and a derived contract address distinct
from the caller, the caller's sequence after commit equals its previous
sequence plus TWO: once from the fee-debit IncSequence and once from
DeriveNewAccount, both promoted by the transaction-cache sync. -/
theorem c6_calltx_create_sequence (c : Crypto) (vm : VMSpec) (st : ExecState)
    (cid height : Nat) (tx : CallTx) (inAcc1 : Account) (in1 : TxInput)
    (ret : List Nat) (writes : List Account)
    (hwf : akeyed st.accounts)
    (h_create : tx.address = none)
    (h_chk : callCheck c vm st cid tx = .ok (inAcc1, in1, none))
    (h_vm : ∀ a b cd d v, vm.run a b cd d v = .ok ret writes)
    (h_wr : ∀ w ∈ writes, w.address ≠ tx.input.address)
    (h_ne : contractAddress tx.input.address (inAcc1.sequence + 1) ≠ tx.input.address) :
    (execute c vm true st cid height (.call tx)).2.2 = none ∧
      ∃ a0 a2, getAccount st tx.input.address = some a0 ∧
        getAccount (execute c vm true st cid height (.call tx)).1 tx.input.address = some a2 ∧
        a2.sequence = a0.sequence + 2 := by
  obtain ⟨h1, a0, a2, ha0, ha2, hseq, _⟩ :=
    callCreateOk_account hwf h_create h_chk h_vm h_wr h_ne
  exact ⟨h1, a0, a2, ha0, ha2, hseq⟩

/-- Witness for C6 as amended: the concrete creating CallTx above takes
the caller from sequence 0 to sequence 2. -/
theorem c6_witness :
    (execute cryptoT { registeredNative := fun _ => false, run := fun _ _ _ _ _ => .ok [] [] } true { accounts := [(2, { address := 2, pubKey := some 2, sequence := 0, balance := 10000, code := [], permissions := allPermsT })], nameReg := [], events := [] } 7 0 (.call { input := { address := 2, amount := 2000, sequence := 1, signature := [9], pubKey := none }, address := none, gasLimit := 0, fee := 1000, data := [7] })).2.2 = none ∧
      ∃ a0 a2, getAccount { accounts := [(2, { address := 2, pubKey := some 2, sequence := 0, balance := 10000, code := [], permissions := allPermsT })], nameReg := [], events := [] } 2 = some a0 ∧
        getAccount (execute cryptoT { registeredNative := fun _ => false, run := fun _ _ _ _ _ => .ok [] [] } true { accounts := [(2, { address := 2, pubKey := some 2, sequence := 0, balance := 10000, code := [], permissions := allPermsT })], nameReg := [], events := [] } 7 0 (.call { input := { address := 2, amount := 2000, sequence := 1, signature := [9], pubKey := none }, address := none, gasLimit := 0, fee := 1000, data := [7] })).1 2 = some a2 ∧
        a2.sequence = a0.sequence + 2 :=
  c6_calltx_create_sequence cryptoT
    { registeredNative := fun _ => false, run := fun _ _ _ _ _ => .ok [] [] }
    { accounts := [(2, { address := 2, pubKey := some 2, sequence := 0, balance := 10000, code := [], permissions := allPermsT })], nameReg := [], events := [] }
    7 0
    { input := { address := 2, amount := 2000, sequence := 1, signature := [9], pubKey := none },
      address := none, gasLimit := 0, fee := 1000, data := [7] }
    { address := 2, pubKey := some 2, sequence := 0, balance := 10000, code := [],
      permissions := allPermsT }
    { address := 2, amount := 2000, sequence := 1, signature := [9], pubKey := none }
    [] []
    (by decide) rfl rfl (fun _ _ _ _ _ => rfl)
    (by intro w hw; simp at hw) (by decide)

theorem getAccount_fireEvent (st : ExecState) (e : Event) (x : Nat) :
    getAccount (fireEvent st e) x = getAccount st x := rfl

/-- NameTx success: the input account's sequence advances by one and its
balance is debited by `amount - fee` (the registry cost `value`, not the
full amount: execution.go lines 441 and 532-535). -/
theorem nameSuccess_account {c : Crypto} {st : ExecState} {cid height : Nat} {tx : NameTx}
    {st1 : ExecState} (hwf : akeyed st.accounts)
    (h : executeName c st cid height tx = (st1, none)) :
    ∃ a0 a2, getAccount st tx.input.address = some a0 ∧
      getAccount st1 tx.input.address = some a2 ∧
      a2.sequence = a0.sequence + 1 ∧
      a2.balance + (tx.input.amount - tx.fee) = a0.balance := by
  cases hchk : nameCheck c st cid tx with
  | error e =>
    unfold executeName at h
    rw [hchk] at h
    simp at h
  | ok pr =>
    obtain ⟨inAcc1, in1⟩ := pr
    obtain ⟨inAcc, hacc, hcp, hv, hfee⟩ := nameCheck_ok hchk
    have hfld := checkInputPubKey_fields hcp
    have hA : inAcc1.address = tx.input.address := by
      rw [hfld.1]
      exact getAccount_address hwf hacc
    have hvn := validateInput_none hv
    have hb : in1.amount ≤ inAcc1.balance := hvn.1
    have hbal : inAcc1.balance = inAcc.balance := hfld.2.2.1
    have hamt : in1.amount = tx.input.amount := hfld.2.2.2.2.1
    have hseq : inAcc1.sequence = inAcc.sequence := hfld.2.1
    unfold executeName at h
    rw [hchk] at h
    dsimp only at h
    cases hra : nameRegApply st height tx (in1.amount - tx.fee) with
    | error e =>
      rw [hra] at h
      simp at h
    | ok stN =>
      rw [hra] at h
      dsimp only at h
      simp only [Prod.mk.injEq] at h
      have hstN := nameRegApply_accounts hra
      refine ⟨inAcc, { inAcc1 with sequence := inAcc1.sequence + 1, balance := inAcc1.balance - (in1.amount - tx.fee) }, hacc, ?_, ?_, ?_⟩
      · rw [← h.1, getAccount_fireEvent, getAccount_fireEvent, getAccount_updateAccount]
        dsimp only
        rw [if_pos hA]
      · dsimp only
        omega
      · dsimp only
        omega

/-- Inversion of the PermissionsTx validation prefix `permCheck`. -/
theorem permCheck_ok {c : Crypto} {st : ExecState} {cid : Nat} {tx : PermissionsTx}
    {inAcc1 : Account} {in1 : TxInput} (h : permCheck c st cid tx = .ok (inAcc1, in1)) :
    ∃ inAcc, getAccount st tx.input.address = some inAcc ∧
      checkInputPubKey c inAcc tx.input = .ok (inAcc1, in1) ∧
      validateInput c inAcc1 (c.signBytes cid (.perm { tx with input := in1 })) in1 = none := by
  unfold permCheck at h
  cases hacc : getAccount st tx.input.address with
  | none => rw [hacc] at h; simp at h
  | some inAcc =>
    rw [hacc] at h
    dsimp only at h
    by_cases h1 : ¬hasPermission st inAcc tx.permArgs.permFlag
    · rw [if_pos h1] at h; simp at h
    · rw [if_neg h1] at h
      cases hcp : checkInputPubKey c inAcc tx.input with
      | error e => rw [hcp] at h; simp at h
      | ok pr =>
        obtain ⟨a1, j1⟩ := pr
        rw [hcp] at h
        dsimp only at h
        cases hv : validateInput c a1 (c.signBytes cid (.perm { tx with input := j1 })) j1 with
        | some e => rw [hv] at h; simp at h
        | none =>
          rw [hv] at h
          simp only [Except.ok.injEq, Prod.mk.injEq] at h
          obtain ⟨ha, hi⟩ := h
          subst ha
          subst hi
          exact ⟨inAcc, rfl, hcp, hv⟩

/-- A successful `mutatePermissions` returns the account stored at the
mutated address (with only its permissions changed). -/
theorem mutatePermissions_address {st : ExecState} {addr : Nat}
    {f : AccountPermissions → Except TxErr AccountPermissions} {acc : Account}
    (hwf : akeyed st.accounts) (h : mutatePermissions st addr f = .ok acc) :
    acc.address = addr := by
  unfold mutatePermissions at h
  cases hg : getAccount st addr with
  | none => rw [hg] at h; simp at h
  | some a =>
    rw [hg] at h
    dsimp only at h
    cases hf : f a.permissions with
    | error e => rw [hf] at h; simp at h
    | ok ps =>
      rw [hf] at h
      simp only [Except.ok.injEq] at h
      subst h
      show a.address = addr
      exact getAccount_address hwf hg

/-- The account returned by a successful `applyPermArgs` lives at the
argument address or at the global-permissions address. -/
theorem applyPermArgs_address {st : ExecState} {args : PermArgs} {permAcc : Account}
    (hwf : akeyed st.accounts) (h : applyPermArgs st args = .ok permAcc) :
    permAcc.address = args.address ∨ permAcc.address = globalPermsAddr := by
  unfold applyPermArgs at h
  split_ifs at h
  all_goals first
    | exact Or.inl (mutatePermissions_address hwf h)
    | exact Or.inr (mutatePermissions_address hwf h)
    | simp at h

/-- PermissionsTx success with a mutation target (and global-permissions
account) distinct from the input account: the input account's sequence
advances by one and the full input amount is debited. -/
theorem permSuccess_account {c : Crypto} {st : ExecState} {cid : Nat} {tx : PermissionsTx}
    {st1 : ExecState} (hwf : akeyed st.accounts)
    (h_tgt : tx.permArgs.address ≠ tx.input.address)
    (h_glob : globalPermsAddr ≠ tx.input.address)
    (h : executePerm c st cid tx = (st1, none)) :
    ∃ a0 a2, getAccount st tx.input.address = some a0 ∧
      getAccount st1 tx.input.address = some a2 ∧
      a2.sequence = a0.sequence + 1 ∧ a2.balance + tx.input.amount = a0.balance := by
  cases hchk : permCheck c st cid tx with
  | error e =>
    unfold executePerm at h
    rw [hchk] at h
    simp at h
  | ok pr =>
    obtain ⟨inAcc1, in1⟩ := pr
    obtain ⟨inAcc, hacc, hcp, hv⟩ := permCheck_ok hchk
    have hfld := checkInputPubKey_fields hcp
    have hA : inAcc1.address = tx.input.address := by
      rw [hfld.1]
      exact getAccount_address hwf hacc
    have hvn := validateInput_none hv
    have hb : in1.amount ≤ inAcc1.balance := hvn.1
    have hbal : inAcc1.balance = inAcc.balance := hfld.2.2.1
    have hamt : in1.amount = tx.input.amount := hfld.2.2.2.2.1
    have hseq : inAcc1.sequence = inAcc.sequence := hfld.2.1
    unfold executePerm at h
    rw [hchk] at h
    dsimp only at h
    cases hpa : applyPermArgs st tx.permArgs with
    | error e =>
      rw [hpa] at h
      simp at h
    | ok permAcc =>
      rw [hpa] at h
      dsimp only at h
      simp only [Prod.mk.injEq] at h
      have hne : ¬permAcc.address = tx.input.address := by
        rcases applyPermArgs_address hwf hpa with h1 | h1
        · rw [h1]; exact h_tgt
        · rw [h1]; exact h_glob
      refine ⟨inAcc, { inAcc1 with sequence := inAcc1.sequence + 1, balance := inAcc1.balance - in1.amount }, hacc, ?_, ?_, ?_⟩
      · rw [← h.1, getAccount_fireEvent, getAccount_fireEvent, getAccount_updateAccount, if_neg hne, getAccount_updateAccount]
        dsimp only
        rw [if_pos hA]
      · dsimp only
        omega
      · dsimp only
        omega

/-- C1 counterexample: a concrete NameTx succeeds, but the input account
is debited `amount - fee` (the registry value), not the full input
amount: starting from balance 200 with amount 166 and fee 1, the final
balance is 35 = 200 - 165, not 200 - 166 = 34. -/
theorem c1_counterexample :
    (execute cryptoT { registeredNative := fun _ => false, run := fun _ _ _ _ _ => .fail "" } true { accounts := [(1, { address := 1, pubKey := some 1, sequence := 0, balance := 200, code := [], permissions := allPermsT })], nameReg := [], events := [] } 7 0 (.name { input := { address := 1, amount := 166, sequence := 1, signature := [9], pubKey := none }, name := "a", data := [], fee := 1 })).2.2 = none ∧
      (getAccount (execute cryptoT { registeredNative := fun _ => false, run := fun _ _ _ _ _ => .fail "" } true { accounts := [(1, { address := 1, pubKey := some 1, sequence := 0, balance := 200, code := [], permissions := allPermsT })], nameReg := [], events := [] } 7 0 (.name { input := { address := 1, amount := 166, sequence := 1, signature := [9], pubKey := none }, name := "a", data := [], fee := 1 })).1 1).map Account.balance = some 35 ∧
      (some 35 : Option Nat) ≠ some (200 - 166) :=
  ⟨rfl, rfl, by decide⟩

/-- C1 as amended: on success the input account's sequence advances by
exactly one for SendTx, NameTx and PermissionsTx, and for CallTx by one
(two for a contract-creating CallTx, whose DeriveNewAccount bumps it a
second time).  The debit is the full input amount for SendTx and
PermissionsTx (the latter stated for mutation targets distinct from the
input account, since writing the mutated target back can otherwise
overwrite the debit) and for CallTx in both the check path and the
commit path with a successful VM call that does not rewrite the caller;
for NameTx the debit is `amount - fee`, NOT the full amount; for a
commit-path CallTx whose VM fails only the fee is debited (covered
separately by the C5 theorem). -/
theorem c1_input_effects (c : Crypto) (vm : VMSpec) (st : ExecState) (cid height : Nat) :
    (∀ tx : SendTx, ∀ st1 fees, akeyed st.accounts →
        execute c vm true st cid height (.send tx) = (st1, fees, none) →
        ∀ i ∈ tx.inputs, ∃ a0 a2, getAccount st i.address = some a0 ∧
          getAccount st1 i.address = some a2 ∧
          a2.sequence = a0.sequence + 1 ∧ a2.balance + i.amount = a0.balance) ∧
    (∀ tx : NameTx, ∀ st1 fees, akeyed st.accounts →
        execute c vm true st cid height (.name tx) = (st1, fees, none) →
        ∃ a0 a2, getAccount st tx.input.address = some a0 ∧
          getAccount st1 tx.input.address = some a2 ∧
          a2.sequence = a0.sequence + 1 ∧
          a2.balance + (tx.input.amount - tx.fee) = a0.balance) ∧
    (∀ tx : PermissionsTx, ∀ st1 fees, akeyed st.accounts →
        tx.permArgs.address ≠ tx.input.address →
        globalPermsAddr ≠ tx.input.address →
        execute c vm true st cid height (.perm tx) = (st1, fees, none) →
        ∃ a0 a2, getAccount st tx.input.address = some a0 ∧
          getAccount st1 tx.input.address = some a2 ∧
          a2.sequence = a0.sequence + 1 ∧ a2.balance + tx.input.amount = a0.balance) ∧
    (∀ tx : CallTx, ∀ st1 fees, akeyed st.accounts →
        execute c vm false st cid height (.call tx) = (st1, fees, none) →
        ∃ a0 a2, getAccount st tx.input.address = some a0 ∧
          getAccount st1 tx.input.address = some a2 ∧
          a2.sequence = a0.sequence + (if tx.address = none then 2 else 1) ∧
          a2.balance + tx.input.amount = a0.balance) ∧
    (∀ tx : CallTx, ∀ inAcc1 in1 ret writes, akeyed st.accounts →
        tx.address = none →
        callCheck c vm st cid tx = .ok (inAcc1, in1, none) →
        (∀ a b cd d v, vm.run a b cd d v = .ok ret writes) →
        (∀ w ∈ writes, w.address ≠ tx.input.address) →
        contractAddress tx.input.address (inAcc1.sequence + 1) ≠ tx.input.address →
        (execute c vm true st cid height (.call tx)).2.2 = none ∧
          ∃ a0 a2, getAccount st tx.input.address = some a0 ∧
            getAccount (execute c vm true st cid height (.call tx)).1 tx.input.address = some a2 ∧
            a2.sequence = a0.sequence + 2 ∧ a2.balance + tx.input.amount = a0.balance) ∧
    (∀ tx : CallTx, ∀ inAcc1 in1 oa ad ret writes, akeyed st.accounts →
        tx.address = some ad →
        ad ≠ tx.input.address →
        callCheck c vm st cid tx = .ok (inAcc1, in1, some oa) →
        ¬oa.code = [] →
        (∀ a b cd d v, vm.run a b cd d v = .ok ret writes) →
        (∀ w ∈ writes, w.address ≠ tx.input.address) →
        (execute c vm true st cid height (.call tx)).2.2 = none ∧
          ∃ a0 a2, getAccount st tx.input.address = some a0 ∧
            getAccount (execute c vm true st cid height (.call tx)).1 tx.input.address = some a2 ∧
            a2.sequence = a0.sequence + 1 ∧ a2.balance + tx.input.amount = a0.balance) := by
  refine ⟨?_, ?_, ?_, ?_, ?_, ?_⟩
  · intro tx st1 fees hk h
    exact sendSuccess_inputs hk h
  · intro tx st1 fees hk h
    have hEN : executeName c st cid height tx = (st1, none) := by
      unfold execute at h
      dsimp only at h
      cases hx : executeName c st cid height tx with
      | mk s2 e2 =>
        rw [hx] at h
        dsimp only at h
        simp only [Prod.mk.injEq] at h
        rw [h.1, h.2.2]
    exact nameSuccess_account hk hEN
  · intro tx st1 fees hk htgt hglob h
    have hEP : executePerm c st cid tx = (st1, none) := by
      unfold execute at h
      dsimp only at h
      cases hx : executePerm c st cid tx with
      | mk s2 e2 =>
        rw [hx] at h
        dsimp only at h
        simp only [Prod.mk.injEq] at h
        rw [h.1, h.2.2]
    exact permSuccess_account hk htgt hglob hEP
  · intro tx st1 fees hk h
    have hEC : executeCall c vm false st cid tx = (st1, none) := by
      unfold execute at h
      dsimp only at h
      cases hx : executeCall c vm false st cid tx with
      | mk s2 e2 =>
        rw [hx] at h
        dsimp only at h
        simp only [Prod.mk.injEq] at h
        rw [h.1, h.2.2]
    exact callCheckPath_account hk hEC
  · intro tx inAcc1 in1 ret writes hk hcr hchk hvm hwr hne
    exact callCreateOk_account hk hcr hchk hvm hwr hne
  · intro tx inAcc1 in1 oa ad ret writes hk had hne2 hchk hcode hvm hwr
    exact callExistingOk_account hk had hne2 hchk hcode hvm hwr

/-- Witness for C1 as amended: the concrete S1 SendTx debits the input's
amount with one sequence bump, and the concrete NameTx from the
counterexample debits `amount - fee` with one sequence bump. -/
theorem c1_witness :
    (∀ i ∈ ({ inputs := [{ address := 1, amount := 600, sequence := 1, signature := [9], pubKey := none }], outputs := [{ address := 2, amount := 600 }] } : SendTx).inputs,
      ∃ a0 a2, getAccount { accounts := [(1, { address := 1, pubKey := some 1, sequence := 0, balance := 1000, code := [], permissions := allPermsT }), (2, { address := 2, pubKey := none, sequence := 0, balance := 0, code := [], permissions := zeroPermsT })], nameReg := [], events := [] } i.address = some a0 ∧
        getAccount (execute cryptoT { registeredNative := fun _ => false, run := fun _ _ _ _ _ => .fail "" } true { accounts := [(1, { address := 1, pubKey := some 1, sequence := 0, balance := 1000, code := [], permissions := allPermsT }), (2, { address := 2, pubKey := none, sequence := 0, balance := 0, code := [], permissions := zeroPermsT })], nameReg := [], events := [] } 7 0 (.send { inputs := [{ address := 1, amount := 600, sequence := 1, signature := [9], pubKey := none }], outputs := [{ address := 2, amount := 600 }] })).1 i.address = some a2 ∧
        a2.sequence = a0.sequence + 1 ∧ a2.balance + i.amount = a0.balance) ∧
    (∃ a0 a2, getAccount { accounts := [(1, { address := 1, pubKey := some 1, sequence := 0, balance := 200, code := [], permissions := allPermsT })], nameReg := [], events := [] } (1 : Nat) = some a0 ∧
        getAccount (execute cryptoT { registeredNative := fun _ => false, run := fun _ _ _ _ _ => .fail "" } true { accounts := [(1, { address := 1, pubKey := some 1, sequence := 0, balance := 200, code := [], permissions := allPermsT })], nameReg := [], events := [] } 7 0 (.name { input := { address := 1, amount := 166, sequence := 1, signature := [9], pubKey := none }, name := "a", data := [], fee := 1 })).1 1 = some a2 ∧
        a2.sequence = a0.sequence + 1 ∧ a2.balance + (166 - 1) = a0.balance) :=
  ⟨(c1_input_effects cryptoT
      { registeredNative := fun _ => false, run := fun _ _ _ _ _ => .fail "" }
      { accounts := [(1, { address := 1, pubKey := some 1, sequence := 0, balance := 1000, code := [], permissions := allPermsT }), (2, { address := 2, pubKey := none, sequence := 0, balance := 0, code := [], permissions := zeroPermsT })], nameReg := [], events := [] }
      7 0).1
    { inputs := [{ address := 1, amount := 600, sequence := 1, signature := [9], pubKey := none }],
      outputs := [{ address := 2, amount := 600 }] }
    _ _ (by decide) rfl,
   (c1_input_effects cryptoT
      { registeredNative := fun _ => false, run := fun _ _ _ _ _ => .fail "" }
      { accounts := [(1, { address := 1, pubKey := some 1, sequence := 0, balance := 200, code := [], permissions := allPermsT })], nameReg := [], events := [] }
      7 0).2.1
    { input := { address := 1, amount := 166, sequence := 1, signature := [9], pubKey := none },
      name := "a", data := [], fee := 1 }
    _ _ (by decide) rfl⟩

end Burrow
